import Mathlib

/-!
# Verification of the multi-strategy text patch engine (`src/internal-tools/edit-file.ts`)

This file gives a shallow embedding of the edit-file engine: text is `List Char`,
the JavaScript string/regex primitives that the implementation relies on
(`String.prototype.replace` with a `g`-flagged escaped-literal pattern and its
`$`-substitution of the replacement string, `indexOf`, `split`, `trim`,
multiline `^(\s*)tok1\s*tok2...` matching) are embedded by total scanning
functions with ECMAScript semantics, and each exported operation of the engine
(`tryExactMatch`, `tryFlexibleMatch`, `tryFuzzyMatch`, `applyEditWithStrategy`,
`editFileTool`) is translated function by function.  Thrown `Error`s become an
`Except` with the error-message string built exactly as in the source; the
external file read/write and the schema validator are passed in as
`Except`-valued inputs, mirroring the `await`ed collaborators.

The source is not total: the `while (true)` occurrence re-scan inside
`tryExactMatch` never terminates when the search text is empty and the content
is not (`indexOf("", k)` never returns `-1` and the index advances by the
pattern length `0`).  The embedding makes that divergence explicit: the re-scan
loop carries fuel and yields `none` when it runs out, and `tryExactMatch` and
everything built on it (`runSingle`, `applySingleStrategy`,
`applyEditWithStrategy`, `applyEditsLoop`, `editFileTool`) return an outer
`Option` whose `none` means the source function never returns.
`ambiguityLoop_nil_pattern` proves the loop yields `none` at *every* fuel for
the empty pattern, and `ambiguityLoop_sufficient` proves the supplied fuel
always suffices for a non-empty pattern — so the outer `none` occurs exactly
where the program hangs, never as a fuel artifact.
-/

namespace EditFile

/-- Text is modelled as a list of characters. -/
abbrev Str := List Char

/-- Coerce a Lean string literal to the text model. -/
def str (s : String) : Str := s.data

/-- The dollar character, special in a JavaScript replacement string. -/
def dollarChar : Char := Char.ofNat 36

/-- The ampersand character (`$&` inserts the matched substring). -/
def ampChar : Char := Char.ofNat 38

/-- The grave-accent character (the `$`-pattern inserting the text before the match). -/
def graveChar : Char := Char.ofNat 96

/-- The apostrophe character (the `$`-pattern inserting the text after the match). -/
def aposChar : Char := Char.ofNat 39

/-- The opening curly-bracket character (a fuzzy-tokenization delimiter). -/
def lbraceChar : Char := Char.ofNat 123

/-- The closing curly-bracket character (a fuzzy-tokenization delimiter). -/
def rbraceChar : Char := Char.ofNat 125

/-- ECMAScript whitespace (the character class `\s`, also used by `trim`):
ASCII whitespace, no-break space, BOM, and the Unicode space separators. -/
def isJsWhitespace (c : Char) : Bool :=
  c = ' ' || c = '\t' || c = '\n' || c = '\r' || c = Char.ofNat 11 || c = Char.ofNat 12 ||
  c = Char.ofNat 0xa0 || c = Char.ofNat 0xfeff || c = Char.ofNat 0x1680 ||
  (0x2000 ≤ c.toNat && c.toNat ≤ 0x200a) ||
  c = Char.ofNat 0x2028 || c = Char.ofNat 0x2029 || c = Char.ofNat 0x202f ||
  c = Char.ofNat 0x205f || c = Char.ofNat 0x3000

/-- ECMAScript line terminators (after which a multiline `^` matches). -/
def isLineTerminator (c : Char) : Bool :=
  c = '\n' || c = '\r' || c = Char.ofNat 0x2028 || c = Char.ofNat 0x2029

/-- `normalizeLineEndings`: `text.replace(/\r\n/g, "\n")` — collapse CRLF to LF. -/
def normalizeLineEndings : Str → Str
  | [] => []
  | [c] => [c]
  | c1 :: c2 :: rest =>
    if c1 = '\r' && c2 = '\n' then '\n' :: normalizeLineEndings rest
    else c1 :: normalizeLineEndings (c2 :: rest)

/-- The two line-ending styles of `detectLineEnding`. -/
inductive LineEnding where
  | crlf
  | lf
deriving DecidableEq, Repr

/-- `content.includes("\r\n")`. -/
def hasCrlf : Str → Bool
  | [] => false
  | [_] => false
  | c1 :: c2 :: rest => (c1 = '\r' && c2 = '\n') || hasCrlf (c2 :: rest)

/-- `detectLineEnding`: CRLF if any `"\r\n"` occurs in the content, else LF. -/
def detectLineEnding (content : Str) : LineEnding :=
  if hasCrlf content then .crlf else .lf

/-- `restoreLineEndings`: for CRLF style, `text.replace(/\n/g, "\r\n")` — the
pattern is the single character `"\n"`, so the global replace expands each LF;
for LF style the text is returned unchanged. -/
def restoreLineEndings (text : Str) (lineEnding : LineEnding) : Str :=
  match lineEnding with
  | .crlf => text.flatMap (fun c => if c = '\n' then ['\r', '\n'] else [c])
  | .lf => text

/-- `s.split(sep)` for a single-character separator: always at least one part,
the separator characters are dropped. -/
def splitOnChar (sep : Char) : Str → List Str
  | [] => [[]]
  | c :: rest =>
    if c = sep then [] :: splitOnChar sep rest
    else
      match splitOnChar sep rest with
      | [] => [[c]]
      | g :: gs => (c :: g) :: gs

/-- `parts.join(sep)`. -/
def joinSep (sep : Str) : List Str → Str
  | [] => []
  | [x] => x
  | x :: xs => x ++ sep ++ joinSep sep xs

/-- `s.trim()`: strip leading and trailing ECMAScript whitespace. -/
def trimJs (s : Str) : Str :=
  ((s.dropWhile isJsWhitespace).reverse.dropWhile isJsWhitespace).reverse

/-- `line.match(/^\s*/)?.[0] || ""`: the maximal leading whitespace run. -/
def leadingWhitespace (s : Str) : Str := s.takeWhile isJsWhitespace

/-- Decimal rendering of a number interpolated into a template literal. -/
def natStr (n : Nat) : Str := (Nat.repr n).data

/-- Count of the matches of `new RegExp(escapeRegex(p), "g")` in a scan of `s`
(non-empty pattern): at each position, a match consumes `p.length` characters,
otherwise the scan advances one character.  `skip` is the number of characters
of the current match still to step over. -/
def countOccGo (p : Str) : Str → Nat → Nat
  | [], _ => 0
  | _ :: rest, skip + 1 => countOccGo p rest skip
  | c :: rest, 0 =>
    if p.isPrefixOf (c :: rest) then 1 + countOccGo p rest (p.length - 1)
    else countOccGo p rest 0

/-- `(content.match(new RegExp(escapedSearch, "g")) || []).length`: for an empty
pattern the regex matches (emptily) at every position including the end of the
string, giving `length + 1`. -/
def countOccurrences (p s : Str) : Nat :=
  if p = [] then s.length + 1 else countOccGo p s 0

/-- ECMAScript `GetSubstitution` for a replacement string: expand `$$`, `$&`,
the before-match and after-match `$`-patterns, and `$1` when the pattern has a
(single) capture group; any other `$` sequence is kept literally.  `group1` is
the capture (`none` for the escaped-literal patterns, which have no groups). -/
def expandRepl (group1 : Option Str) (matched before after : Str) : Str → Str
  | [] => []
  | [c] => [c]
  | c :: d :: rest2 =>
    if c = dollarChar then
      if d = dollarChar then dollarChar :: expandRepl group1 matched before after rest2
      else if d = ampChar then matched ++ expandRepl group1 matched before after rest2
      else if d = graveChar then before ++ expandRepl group1 matched before after rest2
      else if d = aposChar then after ++ expandRepl group1 matched before after rest2
      else
        match group1 with
        | some g =>
          if d = '1' then g ++ expandRepl group1 matched before after rest2
          else c :: expandRepl group1 matched before after (d :: rest2)
        | none => c :: expandRepl group1 matched before after (d :: rest2)
    else c :: expandRepl group1 matched before after (d :: rest2)

/-- `content.replace(new RegExp(escapedSearch, "g"), replaceText)` for a
non-empty pattern: the scan of `countOccGo` with each match replaced by the
`$`-expanded replacement.  `s0` is the whole subject string, `i` the current
position in it (the before/after portions of `GetSubstitution` refer to `s0`). -/
def replaceAllGo (p rt s0 : Str) : Str → Nat → Nat → Str
  | [], _, _ => []
  | _ :: rest, i, skip + 1 => replaceAllGo p rt s0 rest (i + 1) skip
  | c :: rest, i, 0 =>
    if p.isPrefixOf (c :: rest) then
      expandRepl none p (s0.take i) (s0.drop (i + p.length)) rt ++
        replaceAllGo p rt s0 rest (i + 1) (p.length - 1)
    else c :: replaceAllGo p rt s0 rest (i + 1) 0

/-- The global replace for an empty pattern: an empty match at every position. -/
def replaceAllEmptyGo (rt s0 : Str) : Str → Nat → Str
  | [], i => expandRepl none [] (s0.take i) (s0.drop i) rt
  | c :: rest, i =>
    expandRepl none [] (s0.take i) (s0.drop i) rt ++ c :: replaceAllEmptyGo rt s0 rest (i + 1)

/-- `content.replace(new RegExp(escapeRegex(p), "g"), rt)`. -/
def replaceAllJS (p rt s : Str) : Str :=
  if p = [] then replaceAllEmptyGo rt s s 0 else replaceAllGo p rt s s 0 0

/-- `s.indexOf(p)` from position `i` onward (`i` is the absolute index of the
head of the scanned suffix); `none` for JavaScript's `-1`. -/
def indexOfAux (p : Str) : Str → Nat → Option Nat
  | [], i => if p.isPrefixOf ([] : Str) then some i else none
  | c :: rest, i => if p.isPrefixOf (c :: rest) then some i else indexOfAux p rest (i + 1)

/-- `s.indexOf(p)`. -/
def indexOfSub (p s : Str) : Option Nat := indexOfAux p s 0

/-- `s.indexOf(p, k)`. -/
def indexOfFrom (p s : Str) (k : Nat) : Option Nat := indexOfAux p (s.drop k) k

/-- The `while (true)` re-scan of `tryExactMatch` collecting the 1-indexed line
of each occurrence: `indexOf` from `currentIndex`, record
`content.substring(0, matchIndex).split("\n").length`, continue from
`matchIndex + searchText.length`.  The source loop has no bound of its own, so
the embedding spends one unit of fuel per iteration and returns `none` when
the fuel is exhausted.  For a non-empty pattern every iteration strictly
advances the index and the fuel `s.length + 1` always suffices
(`ambiguityLoop_sufficient`); for the empty pattern `indexOf` never fails and
the index never advances, so the loop yields `none` at every fuel
(`ambiguityLoop_nil_pattern`) — exactly where the source loop never
terminates. -/
def ambiguityLoop (p s : Str) : Nat → Nat → Option (List Nat)
  | 0, _ => none
  | fuel + 1, k =>
    match indexOfFrom p s k with
    | none => some []
    | some i =>
      (ambiguityLoop p s fuel (i + p.length)).map
        (fun rest => (splitOnChar '\n' (s.take i)).length :: rest)

/-- The `allMatches` line-number list of `tryExactMatch`; `none` when the
source's `while (true)` loop never terminates. -/
def ambiguityLocations (p s : Str) : Option (List Nat) :=
  ambiguityLoop p s (s.length + 1) 0

/-- The strategy tag of a produced `MatchResult`. -/
inductive Strategy where
  | exact
  | flexible
  | fuzzy
deriving DecidableEq, Repr

/-- The strategy name as interpolated into messages. -/
def strategyName : Strategy → Str
  | .exact => str "exact"
  | .flexible => str "flexible"
  | .fuzzy => str "fuzzy"

/-- `lineRange` of a `MatchResult` (1-indexed, inclusive). -/
structure LineRange where
  start : Nat
  stop : Nat
deriving DecidableEq, Repr

/-- `ambiguity` of a `MatchResult`. -/
structure Ambiguity where
  locations : Str
  suggestion : Str
deriving DecidableEq, Repr

/-- The `MatchResult` record of the source. -/
structure MatchResult where
  strategy : Strategy
  occurrences : Nat
  modifiedContent : Str
  message : Str
  warning : Option Str := none
  lineRange : Option LineRange := none
  ambiguity : Option Ambiguity := none
deriving DecidableEq, Repr

/-- `tryExactMatch`: count the global-regex matches of the normalized `oldText`;
zero means no match (the source's `null`, here `some none`); otherwise replace
every occurrence, locate the first occurrence with `indexOf` and report its
1-indexed line, and when more than one occurrence exists collect every
occurrence's line into `ambiguity` with a `while (true)` re-scan.  That re-scan
never terminates for an empty search text, so the outer `Option` layer records
divergence: `none` means the source function never returns. -/
def tryExactMatch (content oldText newText : Str) : Option (Option MatchResult) :=
  let searchText := normalizeLineEndings oldText
  let replaceText := normalizeLineEndings newText
  let occurrences := countOccurrences searchText content
  if occurrences = 0 then some none
  else
    let modified := replaceAllJS searchText replaceText content
    let firstMatchIndex := (indexOfSub searchText content).getD 0
    let linesBeforeMatch := (splitOnChar '\n' (content.take firstMatchIndex)).length
    let base : MatchResult := {
      strategy := .exact
      occurrences := occurrences
      modifiedContent := modified
      message := str "Exact match found at line " ++ natStr linesBeforeMatch
      lineRange := some ⟨linesBeforeMatch, linesBeforeMatch + (splitOnChar '\n' searchText).length - 1⟩ }
    if occurrences > 1 then
      match ambiguityLocations searchText content with
      | none => none
      | some locs =>
        some (some { base with ambiguity := some (Ambiguity.mk
          (joinSep (str ", ") (locs.map natStr))
          (str "Add more context lines to uniquely identify the target location")) })
    else some (some base)

/-- The window test of `tryFlexibleMatch` at start line `i`: every search line
equals the corresponding content line after trimming both. -/
def windowMatch (contentLines searchLines : List Str) (i : Nat) : Bool :=
  (List.range searchLines.length).all fun j =>
    decide (trimJs (searchLines.getD j []) = trimJs (contentLines.getD (i + j) []))

/-- The recorded match start lines of `tryFlexibleMatch`: the loop
`for (i = 0; i <= contentLines.length - searchLines.length; i++)` (in real
arithmetic, hence no iteration when the search is longer than the content). -/
def flexMatches (contentLines searchLines : List Str) : List Nat :=
  (List.range (contentLines.length + 1 - searchLines.length)).filter
    (windowMatch contentLines searchLines)

/-- The re-indentation map of `tryFlexibleMatch`
(`replaceLines.map((line, idx) => ...)`): the first replacement line always
receives the captured indentation, later lines are blanked when trimmed-empty
and re-indented otherwise. -/
def flexIndentLines (indent : Str) : List Str → List Str
  | [] => []
  | l0 :: rest =>
    (indent ++ trimJs l0) ::
      rest.map (fun l => if trimJs l = [] then [] else indent ++ trimJs l)

/-- One iteration of the reverse-order replacement loop of `tryFlexibleMatch`:
read the indentation of the matched window's first line from the current line
array, join the re-indented replacement into a single element, and splice it
over the `L` matched lines. -/
def spliceOne (replLines : List Str) (L : Nat) (lines : List Str) (m : Nat) : List Str :=
  let indent := leadingWhitespace (lines.getD m [])
  let indentedReplace := joinSep (str "\n") (flexIndentLines indent replLines)
  lines.take m ++ [indentedReplace] ++ lines.drop (m + L)

/-- `tryFlexibleMatch`: slide a window of the search lines over the content
lines comparing trimmed lines; replace every match from the last index to the
first; report the first match's 1-indexed line and, for multiple matches, a
warning listing every matched start line. -/
def tryFlexibleMatch (content oldText newText : Str) : Option MatchResult :=
  let searchText := normalizeLineEndings oldText
  let searchLines := splitOnChar '\n' searchText
  if searchLines = [] then none
  else
    let contentLines := splitOnChar '\n' content
    let ms := flexMatches contentLines searchLines
    if ms = [] then none
    else
      let replLines := splitOnChar '\n' (normalizeLineEndings newText)
      let finalLines := ms.reverse.foldl (spliceOne replLines searchLines.length) contentLines
      let modified := joinSep (str "\n") finalLines
      let firstMatchLine := ms.headD 0 + 1
      some {
        strategy := .flexible
        occurrences := ms.length
        modifiedContent := modified
        message := str "Flexible match found at line " ++ natStr firstMatchLine
        lineRange := some ⟨firstMatchLine, firstMatchLine + searchLines.length - 1⟩
        warning :=
          if ms.length > 1 then
            some (str "Found " ++ natStr ms.length ++ str " matches at lines: " ++
              joinSep (str ", ") (ms.map (fun m => natStr (m + 1))))
          else none }

/-- The fixed delimiter set padded with spaces during fuzzy tokenization. -/
def delimiters : List Char :=
  ['(', ')', lbraceChar, rbraceChar, '[', ']', ';', ',', ':', '=']

/-- One pass of `tokenizedSearch.split(delim).join(\x60 ${delim} \x60)`:
surround every occurrence of the delimiter with spaces. -/
def padDelimiter (s : Str) (d : Char) : Str :=
  s.flatMap fun c => if c = d then [' ', c, ' '] else [c]

/-- `tokenizedSearch.split(/\s+/).filter(Boolean)`: the maximal runs of
non-whitespace characters.  `cur` accumulates the current run reversed. -/
def splitWsGo (cur : Str) : Str → List Str
  | [] => if cur = [] then [] else [cur.reverse]
  | c :: rest =>
    if isJsWhitespace c then
      if cur = [] then splitWsGo [] rest else cur.reverse :: splitWsGo [] rest
    else splitWsGo (c :: cur) rest

/-- The fuzzy token list of `oldText`. -/
def fuzzyTokens (oldText : Str) : List Str :=
  splitWsGo [] (delimiters.foldl padDelimiter (trimJs (normalizeLineEndings oldText)))

/-- Matching of the fuzzy pattern body `tok1\s*tok2\s*...` at a fixed position:
before each token the maximal whitespace run is consumed (tokens start with a
non-whitespace character, so the regex backtracking is deterministic), then the
escaped-literal token must follow.  Returns the number of characters consumed
from `r`, including the leading run captured as the indentation group. -/
def matchTokensGo : List Str → Str → Nat → Option Nat
  | [], _, consumed => some consumed
  | t :: ts, r, consumed =>
    let r2 := r.dropWhile isJsWhitespace
    if t.isPrefixOf r2 then
      matchTokensGo ts (r2.drop t.length) (consumed + (r.length - r2.length) + t.length)
    else none

/-- The multiline scan of `fuzzyRegex.exec(content)`: try the anchored pattern
at the start of the string and after every line terminator, in order; the first
position where every token matches wins.  Returns the match's start and end
index in `content`. -/
def fuzzyScanGo (tokens : List Str) : Str → Nat → Bool → Option (Nat × Nat)
  | [], _, _ => none
  | c :: rest, i, atLineStart =>
    if atLineStart then
      match matchTokensGo tokens (c :: rest) 0 with
      | some consumed => some (i, i + consumed)
      | none => fuzzyScanGo tokens rest (i + 1) (isLineTerminator c)
    else fuzzyScanGo tokens rest (i + 1) (isLineTerminator c)

/-- `fuzzyRegex.exec(content)` for the pattern `^(\s*)tok1\s*tok2...` in
multiline mode. -/
def fuzzyScan (tokens : List Str) (content : Str) : Option (Nat × Nat) :=
  fuzzyScanGo tokens content 0 true

/-- The mandatory advisory warning of every fuzzy outcome. -/
def fuzzyWarningStr : Str :=
  str "Fuzzy matching was used. Please review changes carefully to ensure accuracy."

/-- The re-indentation map of `tryFuzzyMatch` (`replaceLines.map(...)`): blank
lines are left empty, other lines are re-indented with the captured group. -/
def fuzzyIndentLines (indentation : Str) (replLines : List Str) : List Str :=
  replLines.map fun l => if trimJs l = [] then [] else indentation ++ trimJs l

/-- `tryFuzzyMatch`: tokenize `oldText` (pad delimiters, split on whitespace),
run the anchored multiline pattern once, and substitute the first match with
the re-indented replacement (built from the raw `newText`, split on LF) through
`content.replace(fuzzyRegex, indentedReplace)` — a single-match replace whose
replacement string undergoes `$`-expansion with the indentation as group 1. -/
def tryFuzzyMatch (content oldText newText : Str) : Option MatchResult :=
  let tokens := fuzzyTokens oldText
  if tokens = [] then none
  else
    match fuzzyScan tokens content with
    | none => none
    | some (p, e) =>
      let matchedText := (content.drop p).take (e - p)
      let indentation := (content.drop p).takeWhile isJsWhitespace
      let replLines := splitOnChar '\n' newText
      let indentedReplace := joinSep (str "\n") (fuzzyIndentLines indentation replLines)
      let modified := content.take p ++
        expandRepl (some indentation) matchedText (content.take p) (content.drop e) indentedReplace ++
        content.drop e
      let linesBeforeMatch := (splitOnChar '\n' (content.take p)).length
      some {
        strategy := .fuzzy
        occurrences := 1
        modifiedContent := modified
        message := str "Fuzzy match found near line " ++ natStr linesBeforeMatch
        lineRange := some ⟨linesBeforeMatch,
          linesBeforeMatch + (splitOnChar '\n' matchedText).length - 1⟩
        warning := some fuzzyWarningStr }

/-- Modelled from the spec: the `EditOperation` record of §3 (`oldText`,
`newText`, optional human-readable `instruction`, optional positive
`expectedOccurrences`).  Its Zod schema module (`internal-tool-types.ts`) is not
among the provided sources; the field shapes follow the spec's data model and
the field uses in `edit-file.ts`. -/
structure EditOperation where
  oldText : Str
  newText : Str
  instruction : Option Str := none
  expectedOccurrences : Option Nat := none
deriving DecidableEq, Repr

/-- JavaScript truthiness of the optional number `edit.expectedOccurrences`
(`undefined` and `0` are falsy). -/
def truthyNat : Option Nat → Bool
  | none => false
  | some n => decide (n ≠ 0)

/-- JavaScript `o || d` for an optional string (`undefined` and `""` are falsy). -/
def orTruthy (o : Option Str) (d : Str) : Str :=
  match o with
  | none => d
  | some s => if s = [] then d else s

/-- `edit.instruction ? \x60Edit: ${edit.instruction}\n\x60 : ""`. -/
def instrLine (e : EditOperation) : Str :=
  match e.instruction with
  | none => []
  | some ins => if ins = [] then [] else str "Edit: " ++ ins ++ str "\n"

/-- The requested matching strategy (the `matchingStrategy` union incl. `auto`). -/
inductive ReqStrategy where
  | exact
  | flexible
  | fuzzy
  | auto
deriving DecidableEq, Repr

/-- The single-strategy request corresponding to a matcher. -/
def ofStrategy : Strategy → ReqStrategy
  | .exact => .exact
  | .flexible => .flexible
  | .fuzzy => .fuzzy

/-- The `switch (strategy)` dispatch of the non-auto path.  The flexible and
fuzzy matchers always terminate, so their outcomes are wrapped in `some`; only
the exact matcher can diverge (outer `none`). -/
def runSingle (s : Strategy) (content : Str) (e : EditOperation) :
    Option (Option MatchResult) :=
  match s with
  | .exact => tryExactMatch content e.oldText e.newText
  | .flexible => some (tryFlexibleMatch content e.oldText e.newText)
  | .fuzzy => some (tryFuzzyMatch content e.oldText e.newText)

/-- The ambiguity condition guarding every `Ambiguous match` throw:
`failOnAmbiguous && occurrences > 1 && (!expectedOccurrences || expectedOccurrences === 1)`. -/
def ambiguityCond (failOnAmbiguous : Bool) (e : EditOperation) (r : MatchResult) : Bool :=
  failOnAmbiguous && decide (r.occurrences > 1) &&
    (!truthyNat e.expectedOccurrences || e.expectedOccurrences == some 1)

/-- The classified failures thrown by `applyEditWithStrategy`, each carrying
the thrown `Error`'s message string. -/
inductive EditError where
  | ambiguousMatch (msg : Str)
  | noMatchFound (msg : Str)
  | occurrenceMismatch (msg : Str)
deriving DecidableEq, Repr

/-- The message of the wrapped `Error` (`error.message` in the catch block). -/
def EditError.message : EditError → Str
  | .ambiguousMatch m => m
  | .noMatchFound m => m
  | .occurrenceMismatch m => m

/-- The ambiguity throw of the auto-mode exact branch: locations come from
`result.ambiguity?.locations || "multiple"`. -/
def exactAmbiguousMsg (e : EditOperation) (r : MatchResult) : Str :=
  str "Ambiguous match: found " ++ natStr r.occurrences ++ str " occurrences of the search text.\n" ++
  instrLine e ++
  str "Locations: " ++ orTruthy (r.ambiguity.map Ambiguity.locations) (str "multiple") ++ str "\n" ++
  str "Suggestion: " ++
    orTruthy (r.ambiguity.map Ambiguity.suggestion)
      (str "Add more context to uniquely identify the target")

/-- The ambiguity throw of the auto-mode flexible branch: locations come from
`result.warning || "multiple"`. -/
def flexibleAmbiguousMsg (e : EditOperation) (r : MatchResult) : Str :=
  str "Ambiguous match: found " ++ natStr r.occurrences ++ str " occurrences of the search text.\n" ++
  instrLine e ++
  str "Locations: " ++ orTruthy r.warning (str "multiple") ++ str "\n" ++
  str "Suggestion: Add more context to uniquely identify the target"

/-- The ambiguity throw of the single-strategy path: no locations line. -/
def singleAmbiguousMsg (e : EditOperation) (r : MatchResult) : Str :=
  str "Ambiguous match: found " ++ natStr r.occurrences ++ str " occurrences of the search text.\n" ++
  instrLine e ++
  str "Suggestion: Add more context to uniquely identify the target"

/-- The `Failed to apply edit` throw raised when no strategy produced a result. -/
def noMatchMsg (e : EditOperation) (attempted : List Str) : Str :=
  str "Failed to apply edit" ++
  (match e.instruction with
   | none => []
   | some ins => if ins = [] then [] else str "\nEdit goal: " ++ ins) ++
  str "\n\nSearched for:\n" ++ e.oldText ++ str "\n" ++
  str "\nAttempted strategies: " ++ joinSep (str ", ") attempted ++
  str "\n\nTroubleshooting tips:" ++
  str "\n- Ensure oldText matches the file content exactly (check whitespace, indentation)" ++
  str "\n- Include 3-5 lines of context before and after the target change" ++
  str "\n- Try matchingStrategy: \"flexible\" if whitespace is the issue"

/-- The occurrence-validation throw of the single-strategy path. -/
def occurrenceMismatchMsg (e : EditOperation) (r : MatchResult) (n : Nat) : Str :=
  str "Expected " ++ natStr n ++ str " occurrence(s) but found " ++ natStr r.occurrences ++ str "\n" ++
  instrLine e ++
  str "Strategy used: " ++ strategyName r.strategy

/-- The non-auto path of `applyEditWithStrategy`: run the one requested
matcher; a missing result raises `NoMatchFound`; an ambiguous result raises
`AmbiguousMatch`; then the occurrence validation
(`edit.expectedOccurrences && result.occurrences !== edit.expectedOccurrences`)
raises `OccurrenceMismatch`; otherwise the outcome is returned.  A diverging
matcher run (outer `none`) never reaches any of these. -/
def applySingleStrategy (s : Strategy) (content : Str) (e : EditOperation)
    (failOnAmbiguous : Bool) : Option (Except EditError MatchResult) :=
  match runSingle s content e with
  | none => none
  | some none => some (.error (.noMatchFound (noMatchMsg e [strategyName s])))
  | some (some r) =>
    if ambiguityCond failOnAmbiguous e r then
      some (.error (.ambiguousMatch (singleAmbiguousMsg e r)))
    else if truthyNat e.expectedOccurrences &&
        !(e.expectedOccurrences == some r.occurrences) then
      some (.error (.occurrenceMismatch (occurrenceMismatchMsg e r (e.expectedOccurrences.getD 0))))
    else some (.ok r)

/-- `applyEditWithStrategy`: in auto mode try exact → flexible → fuzzy, each
non-null exact/flexible outcome being returned right after the ambiguity check
(falling through to the next strategy only on a null outcome), a fuzzy outcome
returned unconditionally, and exhaustion raising `NoMatchFound` with the three
attempted strategies; in single-strategy mode run `applySingleStrategy`.  Note
the auto path returns outcomes without ever reaching the occurrence
validation.  A diverging exact-matcher run (outer `none`) propagates: the
source never reaches the rest of the cascade. -/
def applyEditWithStrategy (content : Str) (e : EditOperation) (strategy : ReqStrategy)
    (failOnAmbiguous : Bool) : Option (Except EditError MatchResult) :=
  match strategy with
  | .auto =>
    match tryExactMatch content e.oldText e.newText with
    | none => none
    | some (some r) =>
      if ambiguityCond failOnAmbiguous e r then
        some (.error (.ambiguousMatch (exactAmbiguousMsg e r)))
      else some (.ok r)
    | some none =>
      match tryFlexibleMatch content e.oldText e.newText with
      | some r =>
        if ambiguityCond failOnAmbiguous e r then
          some (.error (.ambiguousMatch (flexibleAmbiguousMsg e r)))
        else some (.ok r)
      | none =>
        match tryFuzzyMatch content e.oldText e.newText with
        | some r => some (.ok r)
        | none =>
          some (.error (.noMatchFound (noMatchMsg e [str "exact", str "flexible", str "fuzzy"])))
  | .exact => applySingleStrategy .exact content e failOnAmbiguous
  | .flexible => applySingleStrategy .flexible content e failOnAmbiguous
  | .fuzzy => applySingleStrategy .fuzzy content e failOnAmbiguous

/-- Modelled from the spec: the validated `EditRequest` of §3 with its defaults
(`matchingStrategy` auto, `dryRun` false, `failOnAmbiguous` true), as produced
by the external Zod schema (`internal-tool-types.ts`, not among the provided
sources) and destructured in `editFileTool`; the `path` field only addresses
the external file store and is omitted. -/
structure EditFileArgs where
  edits : List EditOperation
  matchingStrategy : ReqStrategy := .auto
  dryRun : Bool := false
  failOnAmbiguous : Bool := true
deriving DecidableEq, Repr

/-- The `changes` record of a successful `EditFileResult`. -/
structure EditChanges where
  linesAdded : Nat
  linesRemoved : Nat
  editsApplied : Nat
deriving DecidableEq, Repr

/-- The `EditFileResult` union: `{success: true, diff, changes}` or
`{success: false, error}`. -/
structure EditFileResult where
  success : Bool
  diff : Option Str := none
  changes : Option EditChanges := none
  error : Option Str := none
deriving DecidableEq, Repr

/-- The sequential edit loop of `editFileTool`: each edit runs against the
content produced by its predecessors; the first failure aborts the loop, and a
diverging edit (outer `none`) means the loop never returns. -/
def applyEditsLoop (strategy : ReqStrategy) (failOnAmbiguous : Bool) :
    List EditOperation → Str → Option (Except EditError (Str × List MatchResult))
  | [], content => some (.ok (content, []))
  | e :: rest, content =>
    match applyEditWithStrategy content e strategy failOnAmbiguous with
    | none => none
    | some (.error err) => some (.error err)
    | some (.ok r) =>
      match applyEditsLoop strategy failOnAmbiguous rest r.modifiedContent with
      | none => none
      | some (.error err) => some (.error err)
      | some (.ok (finalContent, results)) => some (.ok (finalContent, r :: results))

/-- One line of the diff summary:
`Edit ${idx+1}: ${strategy} match at line ${lineRange?.start || "?"} (${occurrences} occurrence(s))`. -/
def diffEntry (idx : Nat) (r : MatchResult) : Str :=
  str "Edit " ++ natStr (idx + 1) ++ str ": " ++ strategyName r.strategy ++
  str " match at line " ++
  (match r.lineRange with
   | none => str "?"
   | some lr => if lr.start = 0 then str "?" else natStr lr.start) ++
  str " (" ++ natStr r.occurrences ++ str " occurrence" ++
  (if r.occurrences > 1 then str "s" else []) ++ str ")"

/-- The joined per-edit diagnostic entries. -/
def diffSummaryOf (results : List MatchResult) : Str :=
  joinSep (str "\n") (results.enum.map fun p => diffEntry p.1 p.2)

/-- The coarse per-edit line-count totals
(`edit.oldText.split("\n").length` over the raw texts).  The source accumulates
these inside the edit loop; since the totals are only reported when every edit
succeeded, summing over all edits is the same value. -/
def totalLines (f : EditOperation → Str) (edits : List EditOperation) : Nat :=
  edits.foldl (fun t e => t + (splitOnChar '\n' (f e)).length) 0

/-- `editFileTool`: the whole body runs inside `try { ... } catch`, so every
*thrown* failure becomes a `success: false` value — but a diverging edit loop
never throws and never returns, so the `catch` cannot fire: the outer `none`
records an invocation that produces no result and performs no write.  The
external collaborators are passed in: `parsed` is the outcome of
`EditFileArgsSchema.parse(args)` (a Zod throw is caught like any other),
`readRes` the outcome of `fs.readFile`, and `writeRes` the outcome of
`fs.writeFile`.  The second component of the result records the content handed
to the file-store write, `none` when the write was never invoked. -/
def editFileTool (parsed : Except Str EditFileArgs) (readRes : Except Str Str)
    (writeRes : Except Str Unit) : Option (EditFileResult × Option Str) :=
  match parsed with
  | .error msg => some ({ success := false, error := some msg }, none)
  | .ok args =>
    match readRes with
    | .error msg => some ({ success := false, error := some msg }, none)
    | .ok rawContent =>
      let originalLineEnding := detectLineEnding rawContent
      let content := normalizeLineEndings rawContent
      match applyEditsLoop args.matchingStrategy args.failOnAmbiguous args.edits content with
      | none => none
      | some (.error err) => some ({ success := false, error := some err.message }, none)
      | some (.ok (finalNormalized, editResults)) =>
        let finalContent := restoreLineEndings finalNormalized originalLineEnding
        let written := if args.dryRun then none else some finalContent
        some (match written, writeRes with
        | some _, .error msg => ({ success := false, error := some msg }, written)
        | _, _ =>
          ({ success := true
             diff := some ((if args.dryRun then str "[DRY RUN] " else []) ++
               str "Applied " ++ natStr args.edits.length ++ str " edit(s)\n\n" ++
               diffSummaryOf editResults)
             changes := some ⟨totalLines EditOperation.newText args.edits,
               totalLines EditOperation.oldText args.edits, args.edits.length⟩ }, written))

/-- `needle` occurs contiguously inside `hay` (used both for "oldText occurs in
the content" and for "the payload includes ..."). -/
def containsSub (needle hay : Str) : Prop := ∃ pre post, hay = pre ++ needle ++ post

/-- From the spec's words (§4.2, for the refinement statement of the exact
matcher): replace every leftmost non-overlapping occurrence of `p` with the
replacement `r` itself, in one pass. -/
def specReplaceAll (p r : Str) : Str → Str
  | [] => []
  | c :: rest =>
    if p.isPrefixOf (c :: rest) then r ++ specReplaceAll p r (rest.drop (p.length - 1))
    else c :: specReplaceAll p r rest
termination_by s => s.length
decreasing_by
  · simp [List.length_drop]; omega
  · simp

/-- Every line break of the text is a CRLF pair: no LF without a preceding CR,
no CR without a following LF. -/
def crlfExclusive : Str → Bool
  | [] => true
  | [c] => decide (c ≠ '\r' ∧ c ≠ '\n')
  | c1 :: c2 :: rest =>
    if c1 = '\r' then decide (c2 = '\n') && crlfExclusive rest
    else decide (c1 ≠ '\n') && crlfExclusive (c2 :: rest)

/-- A multiline `^` anchors at position `p` of `s`: the string start or right
after a line terminator. -/
def lineStartAt (s : Str) (p : Nat) : Bool :=
  decide (p = 0) || isLineTerminator (s.getD (p - 1) 'x')

/-- The dispatcher terminated and returned an outcome. -/
def isOkResult : Option (Except EditError MatchResult) → Bool
  | some (.ok _) => true
  | _ => false

/-- The dispatcher terminated raising `AmbiguousMatch`. -/
def isAmbiguousFailure : Option (Except EditError MatchResult) → Bool
  | some (.error (.ambiguousMatch _)) => true
  | _ => false

/-- The `occurrences` of a returned outcome. -/
def outcomeOccurrences : Option (Except EditError MatchResult) → Option Nat
  | some (.ok r) => some r.occurrences
  | _ => none

deriving instance DecidableEq for Except

/-- The exact outcome of replacing `"a"` by `"b"` in content `"a"`
(a concrete record used by witnesses). -/
def sampleExactOutcome : MatchResult :=
  { strategy := .exact
    occurrences := 1
    modifiedContent := str "b"
    message := str "Exact match found at line 1"
    lineRange := some ⟨1, 1⟩ }

/-- The exact outcome of replacing `"a"` by `"b"` in content `"aa"`
(a concrete ambiguous record used by witnesses). -/
def sampleAmbiguousOutcome : MatchResult :=
  { strategy := .exact
    occurrences := 2
    modifiedContent := str "bb"
    message := str "Exact match found at line 1"
    lineRange := some ⟨1, 1⟩
    ambiguity := some ⟨str "1, 1",
      str "Add more context lines to uniquely identify the target location"⟩ }

theorem containsSub_appL {needle a : Str} (h : containsSub needle a) (b : Str) :
    containsSub needle (a ++ b) := by
  obtain ⟨p, q, rfl⟩ := h
  exact ⟨p, q ++ b, by simp⟩

theorem containsSub_appR (a : Str) {needle b : Str} (h : containsSub needle b) :
    containsSub needle (a ++ b) := by
  obtain ⟨p, q, rfl⟩ := h
  exact ⟨a ++ p, q, by simp⟩

theorem containsSub_self (needle : Str) : containsSub needle needle := ⟨[], [], by simp⟩

theorem isPrefixOf_iff_exists : ∀ p s : Str, p.isPrefixOf s = true ↔ ∃ t, s = p ++ t := by
  intro p
  induction p with
  | nil => intro s; simp [List.isPrefixOf]
  | cons a p ih =>
    intro s
    cases s with
    | nil => simp [List.isPrefixOf]
    | cons b s =>
      simp only [List.isPrefixOf, Bool.and_eq_true, beq_iff_eq, ih, List.cons_append,
        List.cons.injEq]
      constructor
      · rintro ⟨rfl, t, rfl⟩; exact ⟨t, rfl, rfl⟩
      · rintro ⟨t, rfl, rfl⟩; exact ⟨rfl, t, rfl⟩

theorem containsSub_nil_iff (p : Str) : containsSub p [] ↔ p = [] := by
  constructor
  · rintro ⟨pre, post, h⟩
    rw [eq_comm, List.append_eq_nil, List.append_eq_nil] at h
    exact h.1.2
  · rintro rfl; exact ⟨[], [], rfl⟩

theorem containsSub_cons_iff (p : Str) (c : Char) (s : Str) :
    containsSub p (c :: s) ↔ p.isPrefixOf (c :: s) = true ∨ containsSub p s := by
  constructor
  · rintro ⟨pre, post, h⟩
    cases pre with
    | nil =>
      left
      rw [isPrefixOf_iff_exists]
      exact ⟨post, by simpa using h⟩
    | cons d pre =>
      right
      rw [List.cons_append, List.cons_append] at h
      injection h with h1 h2
      exact ⟨pre, post, h2⟩
  · rintro (h | ⟨pre, post, rfl⟩)
    · rw [isPrefixOf_iff_exists] at h
      obtain ⟨t, ht⟩ := h
      exact ⟨[], t, by simp [ht]⟩
    · exact ⟨c :: pre, post, by simp⟩

theorem countOccGo_eq_zero_iff (p : Str) (hp : p ≠ []) : ∀ s : Str,
    countOccGo p s 0 = 0 ↔ ¬ containsSub p s := by
  intro s
  induction s with
  | nil =>
    simp [countOccGo, containsSub_nil_iff, hp]
  | cons c rest ih =>
    rw [countOccGo]
    split
    · rename_i hpre
      constructor
      · omega
      · intro h
        exact absurd ((containsSub_cons_iff p c rest).mpr (Or.inl hpre)) h
    · rename_i hpre
      rw [ih, containsSub_cons_iff]
      constructor
      · rintro h (hh | hh)
        · exact hpre hh
        · exact h hh
      · intro h hh
        exact h (Or.inr hh)

theorem countOccurrences_eq_zero_iff (p s : Str) (hp : p ≠ []) :
    countOccurrences p s = 0 ↔ ¬ containsSub p s := by
  rw [countOccurrences, if_neg hp, countOccGo_eq_zero_iff p hp]

theorem indexOfAux_eq_none_iff (p : Str) : ∀ (s : Str) (i : Nat),
    indexOfAux p s i = none ↔ ¬ containsSub p s := by
  intro s
  induction s with
  | nil =>
    intro i
    rw [indexOfAux, containsSub_nil_iff]
    cases p with
    | nil => simp [List.isPrefixOf]
    | cons a p => simp [List.isPrefixOf]
  | cons c rest ih =>
    intro i
    rw [indexOfAux, containsSub_cons_iff]
    split
    · rename_i hpre
      simp [hpre]
    · rename_i hpre
      rw [ih]
      constructor
      · rintro h (hh | hh)
        · rw [hh] at hpre; simp at hpre
        · exact h hh
      · intro h hh
        exact h (Or.inr hh)

theorem indexOfAux_some_spec (p : Str) : ∀ (s : Str) (i j : Nat),
    indexOfAux p s i = some j →
    i ≤ j ∧ p.isPrefixOf (s.drop (j - i)) = true ∧
      ∀ k, k < j - i → p.isPrefixOf (s.drop k) = false := by
  intro s
  induction s with
  | nil =>
    intro i j h
    rw [indexOfAux] at h
    split at h
    · rename_i hpre
      injection h with h
      subst h
      refine ⟨Nat.le_refl _, by simpa using hpre, ?_⟩
      intro k hk
      omega
    · exact absurd h (by simp)
  | cons c rest ih =>
    intro i j h
    rw [indexOfAux] at h
    split at h
    · rename_i hpre
      injection h with h
      subst h
      refine ⟨Nat.le_refl _, by simpa using hpre, ?_⟩
      intro k hk
      omega
    · rename_i hpre
      obtain ⟨h1, h2, h3⟩ := ih (i + 1) j h
      refine ⟨by omega, ?_, ?_⟩
      · have : j - i = (j - (i + 1)) + 1 := by omega
        rw [this, List.drop_succ_cons]
        exact h2
      · intro k hk
        cases k with
        | zero =>
          simp only [List.drop_zero]
          exact Bool.eq_false_iff.mpr hpre
        | succ k =>
          rw [List.drop_succ_cons]
          exact h3 k (by omega)

/-- For the empty search text the occurrence re-scan of `tryExactMatch` never
terminates: `indexOf("", k)` always succeeds and the index advances by the
pattern length `0`, so no amount of fuel reaches the exit — the embedded loop
returns `none` at every fuel, mirroring the source's divergence. -/
theorem ambiguityLoop_nil_pattern (s : Str) : ∀ (fuel k : Nat),
    ambiguityLoop [] s fuel k = none := by
  intro fuel
  induction fuel with
  | zero => intro k; rfl
  | succ f ih =>
    intro k
    rw [ambiguityLoop]
    have hidx : indexOfFrom [] s k = some k := by
      rw [indexOfFrom]
      cases s.drop k with
      | nil => rw [indexOfAux]; simp [List.isPrefixOf]
      | cons c rest => rw [indexOfAux]; simp [List.isPrefixOf]
    simp [hidx, ih]

/-- A successful `indexOf` from position `k` lands at `k` or later, and a
non-empty pattern fits inside the string at the match position. -/
theorem indexOfFrom_bounds (p s : Str) (k i : Nat) (hp : p ≠ [])
    (h : indexOfFrom p s k = some i) : k ≤ i ∧ i + p.length ≤ s.length := by
  rw [indexOfFrom] at h
  obtain ⟨hki, hpre, -⟩ := indexOfAux_some_spec p (s.drop k) k i h
  rw [isPrefixOf_iff_exists] at hpre
  obtain ⟨t, ht⟩ := hpre
  have hlen := congrArg List.length ht
  simp only [List.length_drop, List.length_append] at hlen
  have hplen : 1 ≤ p.length := by
    cases p with
    | nil => exact absurd rfl hp
    | cons a q => simp
  exact ⟨hki, by omega⟩

/-- For a non-empty pattern every iteration of the re-scan loop strictly
advances the index, so any positive fuel exceeding the remaining length
suffices: the loop returns a value, never a fuel artifact. -/
theorem ambiguityLoop_sufficient (p s : Str) (hp : p ≠ []) : ∀ (fuel k : Nat),
    0 < fuel → s.length < k + fuel → ∃ locs, ambiguityLoop p s fuel k = some locs := by
  intro fuel
  induction fuel with
  | zero => intro k h0 _; exact absurd h0 (by omega)
  | succ f ih =>
    intro k _ hk
    rw [ambiguityLoop]
    cases hidx : indexOfFrom p s k with
    | none =>
      refine ⟨[], ?_⟩
      simp [hidx]
    | some i =>
      obtain ⟨hki, hfit⟩ := indexOfFrom_bounds p s k i hp hidx
      have hplen : 1 ≤ p.length := by
        cases p with
        | nil => exact absurd rfl hp
        | cons a q => simp
      obtain ⟨locs, hlocs⟩ := ih (i + p.length) (by omega) (by omega)
      refine ⟨(splitOnChar '\n' (s.take i)).length :: locs, ?_⟩
      simp [hidx, hlocs]

/-- The fuel `s.length + 1` spent by `ambiguityLocations` always suffices for a
non-empty pattern: the `allMatches` computation terminates with a value. -/
theorem ambiguityLocations_isSome (p s : Str) (hp : p ≠ []) :
    ∃ locs, ambiguityLocations p s = some locs :=
  ambiguityLoop_sufficient p s hp (s.length + 1) 0 (by omega) (by omega)

/-- `tryExactMatch` diverges only through the occurrence re-scan, so for a
non-empty normalized search text it always returns a value: the outer `none`
occurs exactly where the source hangs. -/
theorem tryExactMatch_ne_none (content oldText newText : Str)
    (hp : normalizeLineEndings oldText ≠ []) :
    tryExactMatch content oldText newText ≠ none := by
  rw [tryExactMatch]
  split
  · simp
  · split
    · obtain ⟨locs, hlocs⟩ :=
        ambiguityLocations_isSome (normalizeLineEndings oldText) content hp
      simp [hlocs]
    · simp

theorem splitOnChar_ne_nil (sep : Char) : ∀ s : Str, splitOnChar sep s ≠ [] := by
  intro s
  cases s with
  | nil => simp [splitOnChar]
  | cons c rest =>
    rw [splitOnChar]
    split
    · simp
    · split
      · simp
      · simp

theorem splitOnChar_length (sep : Char) : ∀ s : Str,
    (splitOnChar sep s).length = s.count sep + 1 := by
  intro s
  induction s with
  | nil => simp [splitOnChar]
  | cons c rest ih =>
    rw [splitOnChar, List.count_cons]
    split
    · rename_i hc
      simp only [List.length_cons, ih]
      simp [hc]
    · rename_i hc
      have hne := splitOnChar_ne_nil sep rest
      cases hsp : splitOnChar sep rest with
      | nil => exact absurd hsp hne
      | cons g gs =>
        simp only [List.length_cons]
        rw [hsp] at ih
        simp only [List.length_cons] at ih
        have : (c = sep) = False := by simp [hc]
        simp [beq_iff_eq, Ne.symm, hc]
        omega

theorem expandRepl_no_dollar (group1 : Option Str) (matched before after : Str) :
    ∀ t : Str, dollarChar ∉ t → expandRepl group1 matched before after t = t
  | [], _ => rfl
  | [_], _ => rfl
  | c :: d :: rest2, h => by
    have hc : c ≠ dollarChar := fun hh => h (by simp [hh])
    have hd : dollarChar ∉ d :: rest2 := fun hh => h (List.mem_cons_of_mem _ hh)
    simp only [expandRepl]
    rw [if_neg hc, expandRepl_no_dollar group1 matched before after (d :: rest2) hd]

theorem replaceAllGo_skip (p rt s0 : Str) : ∀ (skip : Nat) (s : Str) (i : Nat),
    replaceAllGo p rt s0 s i skip = replaceAllGo p rt s0 (s.drop skip) (i + skip) 0
  | 0, s, i => by simp
  | skip + 1, [], i => by rw [replaceAllGo]; simp [replaceAllGo]
  | skip + 1, c :: rest, i => by
    rw [replaceAllGo, replaceAllGo_skip p rt s0 skip rest (i + 1), List.drop_succ_cons]
    have : i + 1 + skip = i + (skip + 1) := by omega
    rw [this]

theorem replaceAllGo_eq_spec (p rt s0 : Str) (hp : p ≠ []) (hd : dollarChar ∉ rt) :
    ∀ (n : Nat) (s : Str), s.length ≤ n → ∀ i : Nat,
      replaceAllGo p rt s0 s i 0 = specReplaceAll p rt s := by
  intro n
  induction n with
  | zero =>
    intro s hs i
    have : s = [] := List.length_eq_zero.mp (Nat.le_zero.mp hs)
    subst this
    simp [replaceAllGo, specReplaceAll]
  | succ n ih =>
    intro s hs i
    cases s with
    | nil => simp [replaceAllGo, specReplaceAll]
    | cons c rest =>
      rw [replaceAllGo, specReplaceAll]
      by_cases hpre : p.isPrefixOf (c :: rest) = true
      · rw [if_pos hpre, if_pos hpre,
          expandRepl_no_dollar none p (s0.take i) (s0.drop (i + p.length)) rt hd,
          replaceAllGo_skip p rt s0 (p.length - 1) rest (i + 1)]
        congr 1
        exact ih (rest.drop (p.length - 1)) (by simp at hs ⊢; omega) _
      · rw [if_neg hpre, if_neg hpre]
        congr 1
        exact ih rest (by simp at hs; omega) _

theorem replaceAllJS_eq_spec (p rt s : Str) (hp : p ≠ []) (hd : dollarChar ∉ rt) :
    replaceAllJS p rt s = specReplaceAll p rt s := by
  rw [replaceAllJS, if_neg hp]
  exact replaceAllGo_eq_spec p rt s hp hd s.length s (Nat.le_refl _) 0

/-- C4, amended.  The exact matcher returns `none` exactly when the (normalized)
`oldText` does not occur in the content.  Otherwise — provided `oldText` is
non-empty (on an empty `oldText` with several matches the implementation's
ambiguity re-scan loops forever) and `newText` contains no dollar character
(otherwise JavaScript replacement-pattern expansion rewrites it, see the
counterexample) — the modified content replaces every leftmost non-overlapping
occurrence of `oldText` with `newText`, `occurrences` is the match count taken
on the content before replacement, and `lineRange.start` is one plus the number
of line feeds before the first occurrence, whose index is characterized as the
least position where `oldText` is a prefix of the remaining content. -/
theorem C4_exact_matcher (content oldText newText : Str)
    (hold : normalizeLineEndings oldText = oldText)
    (hnew : normalizeLineEndings newText = newText)
    (hne : oldText ≠ []) (hdollar : dollarChar ∉ newText) :
    (tryExactMatch content oldText newText = some none ↔ ¬ containsSub oldText content) ∧
    (∀ r, tryExactMatch content oldText newText = some (some r) →
      r.modifiedContent = specReplaceAll oldText newText content ∧
      r.occurrences = countOccurrences oldText content ∧
      ∃ i, indexOfSub oldText content = some i ∧
        oldText.isPrefixOf (content.drop i) = true ∧
        (∀ k, k < i → oldText.isPrefixOf (content.drop k) = false) ∧
        r.lineRange = some ⟨(content.take i).count '\n' + 1,
          (content.take i).count '\n' + 1 + (splitOnChar '\n' oldText).length - 1⟩) := by
  have hz := countOccurrences_eq_zero_iff oldText content hne
  constructor
  · rw [tryExactMatch]
    simp only [hold, hnew]
    by_cases h0 : countOccurrences oldText content = 0
    · simp only [if_pos h0]
      simp [hz.mp h0]
    · rw [if_neg h0]
      have hocc : containsSub oldText content := by
        by_contra hcs
        exact h0 (hz.mpr hcs)
      split
      · cases hlocs : ambiguityLocations oldText content <;> simp [hocc]
      · simp [hocc]
  · intro r hr
    rw [tryExactMatch] at hr
    simp only [hold, hnew] at hr
    by_cases h0 : countOccurrences oldText content = 0
    · rw [if_pos h0] at hr
      exact absurd hr (by simp)
    · rw [if_neg h0] at hr
      have hocc : containsSub oldText content := by
        by_contra hcs
        exact h0 (hz.mpr hcs)
      obtain ⟨i, hi⟩ : ∃ i, indexOfSub oldText content = some i := by
        cases hidx : indexOfSub oldText content with
        | none => exact absurd ((indexOfAux_eq_none_iff oldText content 0).mp hidx) (by simpa)
        | some i => exact ⟨i, rfl⟩
      obtain ⟨-, hpre, hmin⟩ := indexOfAux_some_spec oldText content 0 i hi
      simp only [Nat.sub_zero] at hpre hmin
      have hmod := replaceAllJS_eq_spec oldText newText content hne hdollar
      split at hr
      · cases hlocs : ambiguityLocations oldText content with
        | none =>
          simp only [hlocs] at hr
          exact absurd hr (by simp)
        | some locs =>
          simp only [hlocs] at hr
          injection hr with hr
          injection hr with hr
          subst hr
          refine ⟨hmod, rfl, i, hi, hpre, hmin, ?_⟩
          simp [hi, splitOnChar_length]
      · injection hr with hr
        injection hr with hr
        subst hr
        refine ⟨hmod, rfl, i, hi, hpre, hmin, ?_⟩
        simp [hi, splitOnChar_length]

/-- C4 counterexample: with `oldText = "a"` and `newText = "$$"` on content
`"a"`, the implementation produces `"$"` (JavaScript `$`-expansion of the
replacement string), not the claimed replacement-by-`newText`, which gives
`"$$"`. -/
theorem C4_counterexample :
    (tryExactMatch (str "a") (str "a") (str "$$")).map
        (fun o => o.map MatchResult.modifiedContent) =
        some (some (str "$")) ∧
      specReplaceAll (str "a") (str "$$") (str "a") = str "$$" ∧
      ¬ (str "$" : Str) = str "$$" := by
  refine ⟨by decide, ?_, by decide⟩
  show specReplaceAll ('a' :: []) (str "$$") ('a' :: []) = str "$$"
  rw [specReplaceAll.eq_def]
  simp [List.isPrefixOf]
  rw [specReplaceAll.eq_def]

/-- Witness for C4 at a concrete input. -/
theorem C4_exact_matcher_witness :
    tryExactMatch (str "xay") (str "a") (str "b") = some none ↔
      ¬ containsSub (str "a") (str "xay") :=
  (C4_exact_matcher (str "xay") (str "a") (str "b")
    (by decide) (by decide) (by decide) (by decide)).1

theorem ambiguityCond_iff (f : Bool) (e : EditOperation) (r : MatchResult) :
    ambiguityCond f e r = true ↔
      f = true ∧ r.occurrences > 1 ∧
        (e.expectedOccurrences = none ∨ e.expectedOccurrences = some 0 ∨
          e.expectedOccurrences = some 1) := by
  rw [ambiguityCond]
  cases hex : e.expectedOccurrences with
  | none => simp [truthyNat]
  | some n =>
    simp only [truthyNat, Bool.and_eq_true, Bool.or_eq_true, Bool.not_eq_true,
      decide_eq_true_eq, decide_eq_false_iff_not, not_not, beq_iff_eq, Option.some.injEq]
    constructor
    · rintro ⟨⟨hf, ho⟩, hn | hn⟩
      · exact ⟨hf, ho, Or.inr (Or.inl (by simpa using hn))⟩
      · exact ⟨hf, ho, Or.inr (Or.inr (by simpa using hn))⟩
    · rintro ⟨hf, ho, h | h | h⟩
      · exact absurd h (by simp)
      · exact ⟨⟨hf, ho⟩, Or.inl (by simpa using h)⟩
      · exact ⟨⟨hf, ho⟩, Or.inr (by simpa using h)⟩

/-- C1, amended.  Occurrence validation applies only when a single specific
strategy is requested: if that matcher produced an outcome which did not
trigger the ambiguity check, a set (positive) `expectedOccurrences` that
differs from the outcome's `occurrences` makes the dispatcher raise
`OccurrenceMismatch`, whose payload reports both counts and the strategy used.
In auto mode — last conjunct, for an exact outcome — the dispatcher returns
the non-ambiguous outcome without any occurrence validation. -/
theorem C1_occurrence_validation (content : Str) (e : EditOperation) (failOnAmbiguous : Bool)
    (s : Strategy) (r : MatchResult) (n : Nat)
    (hm : runSingle s content e = some (some r))
    (hamb : ambiguityCond failOnAmbiguous e r = false)
    (hexp : e.expectedOccurrences = some n) (hn : n ≠ 0) (hneq : r.occurrences ≠ n) :
    applyEditWithStrategy content e (ofStrategy s) failOnAmbiguous =
        some (.error (.occurrenceMismatch (occurrenceMismatchMsg e r n))) ∧
      containsSub (natStr n) (occurrenceMismatchMsg e r n) ∧
      containsSub (natStr r.occurrences) (occurrenceMismatchMsg e r n) ∧
      containsSub (strategyName r.strategy) (occurrenceMismatchMsg e r n) ∧
      (tryExactMatch content e.oldText e.newText = some (some r) →
        applyEditWithStrategy content e .auto failOnAmbiguous = some (.ok r)) := by
  have hmain : applySingleStrategy s content e failOnAmbiguous =
      some (.error (.occurrenceMismatch (occurrenceMismatchMsg e r n))) := by
    rw [applySingleStrategy, hm]
    simp [hamb, hexp, truthyNat, hn, Ne.symm hneq]
  refine ⟨?_, ?_, ?_, ?_, ?_⟩
  · cases s <;> exact hmain
  · rw [occurrenceMismatchMsg]
    exact containsSub_appL (containsSub_appL (containsSub_appL (containsSub_appL
      (containsSub_appL (containsSub_appL
        (containsSub_appR _ (containsSub_self _)) _) _) _) _) _) _
  · rw [occurrenceMismatchMsg]
    exact containsSub_appL (containsSub_appL (containsSub_appL (containsSub_appL
      (containsSub_appR _ (containsSub_self _)) _) _) _) _
  · rw [occurrenceMismatchMsg]
    exact containsSub_appR _ (containsSub_self _)
  · intro hex
    rw [applyEditWithStrategy, hex]
    simp [hamb]

/-- C1 counterexample: strategy `auto`, one occurrence, `expectedOccurrences = 2`
— the claim demands an `OccurrenceMismatch`, but the dispatcher returns the
outcome (`occurrences = 1`) successfully: in auto mode the occurrence
validation is never reached. -/
theorem C1_counterexample :
    isOkResult (applyEditWithStrategy (str "a")
        { oldText := str "a", newText := str "b", expectedOccurrences := some 2 }
        .auto true) = true ∧
      outcomeOccurrences (applyEditWithStrategy (str "a")
        { oldText := str "a", newText := str "b", expectedOccurrences := some 2 }
        .auto true) = some 1 := by
  constructor <;> decide

/-- Witness for C1 at a concrete input (strategy exact, one occurrence,
`expectedOccurrences = 2`). -/
theorem C1_occurrence_validation_witness :
    applyEditWithStrategy (str "a")
        { oldText := str "a", newText := str "b", expectedOccurrences := some 2 }
        (ofStrategy .exact) true =
      some (.error (.occurrenceMismatch (occurrenceMismatchMsg
        { oldText := str "a", newText := str "b", expectedOccurrences := some 2 }
        sampleExactOutcome 2))) :=
  (C1_occurrence_validation (str "a")
    { oldText := str "a", newText := str "b", expectedOccurrences := some 2 }
    true .exact sampleExactOutcome 2 (by decide) (by decide) rfl
    (by decide) (by decide)).1

/-- C2, amended.  For an exact or flexible outcome produced through the
dispatcher, `AmbiguousMatch` is raised iff `failOnAmbiguous` is true, the
outcome's `occurrences` exceeds 1, and `expectedOccurrences` is unset (or the
falsy 0) **or equal to 1** — not "not equal to 1" as claimed.  In auto mode
the failure payload carries the candidate line locations (the exact matcher's
ambiguity list, resp. the flexible matcher's warning line list); the
single-strategy failure message carries no locations (it is
`singleAmbiguousMsg`, which has no locations component). -/
theorem C2_ambiguity_check (content : Str) (e : EditOperation) (failOnAmbiguous : Bool)
    (s : Strategy) (r : MatchResult)
    (hs : s = Strategy.exact ∨ s = Strategy.flexible)
    (hm : runSingle s content e = some (some r)) :
    (isAmbiguousFailure (applyEditWithStrategy content e (ofStrategy s) failOnAmbiguous) = true ↔
      failOnAmbiguous = true ∧ r.occurrences > 1 ∧
        (e.expectedOccurrences = none ∨ e.expectedOccurrences = some 0 ∨
          e.expectedOccurrences = some 1)) ∧
    (ambiguityCond failOnAmbiguous e r = true →
      applyEditWithStrategy content e (ofStrategy s) failOnAmbiguous =
        some (.error (.ambiguousMatch (singleAmbiguousMsg e r)))) ∧
    (s = Strategy.exact →
      (isAmbiguousFailure (applyEditWithStrategy content e .auto failOnAmbiguous) = true ↔
        failOnAmbiguous = true ∧ r.occurrences > 1 ∧
          (e.expectedOccurrences = none ∨ e.expectedOccurrences = some 0 ∨
            e.expectedOccurrences = some 1)) ∧
      (ambiguityCond failOnAmbiguous e r = true →
        applyEditWithStrategy content e .auto failOnAmbiguous =
          some (.error (.ambiguousMatch (exactAmbiguousMsg e r))) ∧
        ∀ a, r.ambiguity = some a → a.locations ≠ [] →
          containsSub a.locations (exactAmbiguousMsg e r))) ∧
    (s = Strategy.flexible → tryExactMatch content e.oldText e.newText = some none →
      (isAmbiguousFailure (applyEditWithStrategy content e .auto failOnAmbiguous) = true ↔
        failOnAmbiguous = true ∧ r.occurrences > 1 ∧
          (e.expectedOccurrences = none ∨ e.expectedOccurrences = some 0 ∨
            e.expectedOccurrences = some 1)) ∧
      (ambiguityCond failOnAmbiguous e r = true →
        applyEditWithStrategy content e .auto failOnAmbiguous =
          some (.error (.ambiguousMatch (flexibleAmbiguousMsg e r))) ∧
        ∀ w, r.warning = some w → w ≠ [] →
          containsSub w (flexibleAmbiguousMsg e r))) := by
  have hiff := ambiguityCond_iff failOnAmbiguous e r
  have hsingle : isAmbiguousFailure (applySingleStrategy s content e failOnAmbiguous) =
      ambiguityCond failOnAmbiguous e r := by
    simp only [applySingleStrategy, hm]
    cases hcv : ambiguityCond failOnAmbiguous e r with
    | true => simp [isAmbiguousFailure]
    | false =>
      simp only [Bool.false_eq_true, if_false]
      split <;> simp [isAmbiguousFailure]
  refine ⟨?_, ?_, ?_, ?_⟩
  · rw [← hiff, ← hsingle]
    cases s <;> exact Iff.rfl
  · intro hc
    have hgoal : applySingleStrategy s content e failOnAmbiguous =
        some (.error (.ambiguousMatch (singleAmbiguousMsg e r))) := by
      simp [applySingleStrategy, hm, hc]
    cases s <;> exact hgoal
  · rintro rfl
    simp only [runSingle] at hm
    constructor
    · rw [← hiff]
      simp only [applyEditWithStrategy, hm]
      cases hcv : ambiguityCond failOnAmbiguous e r with
      | true => simp [isAmbiguousFailure]
      | false => simp [isAmbiguousFailure]
    · intro hc
      refine ⟨by simp [applyEditWithStrategy, hm, hc], ?_⟩
      intro a ha hane
      rw [exactAmbiguousMsg, ha]
      simp only [Option.map_some']
      rw [show orTruthy (some a.locations) (str "multiple") = a.locations by
        rw [orTruthy]; simp [hane]]
      exact containsSub_appL (containsSub_appL (containsSub_appL
        (containsSub_appR _ (containsSub_self _)) _) _) _
  · rintro rfl hexn
    simp only [runSingle, Option.some.injEq] at hm
    constructor
    · rw [← hiff]
      simp only [applyEditWithStrategy, hexn, hm]
      cases hcv : ambiguityCond failOnAmbiguous e r with
      | true => simp [isAmbiguousFailure]
      | false => simp [isAmbiguousFailure]
    · intro hc
      refine ⟨by simp [applyEditWithStrategy, hexn, hm, hc], ?_⟩
      intro w hw hwne
      rw [flexibleAmbiguousMsg, hw]
      rw [show orTruthy (some w) (str "multiple") = w by rw [orTruthy]; simp [hwne]]
      exact containsSub_appL (containsSub_appL
        (containsSub_appR _ (containsSub_self _)) _) _

/-- C2 counterexample: `failOnAmbiguous = true`, two occurrences, and
`expectedOccurrences = 2` (set and not equal to 1) — the claim demands an
`AmbiguousMatch`, but the dispatcher returns the outcome successfully: the
implementation's condition is "unset or **equal** to 1". -/
theorem C2_counterexample :
    isAmbiguousFailure (applyEditWithStrategy (str "aa")
        { oldText := str "a", newText := str "b", expectedOccurrences := some 2 }
        .exact true) = false ∧
      outcomeOccurrences (applyEditWithStrategy (str "aa")
        { oldText := str "a", newText := str "b", expectedOccurrences := some 2 }
        .exact true) = some 2 := by
  constructor <;> decide

/-- Witness for C2 at a concrete input (two occurrences, no expected count). -/
theorem C2_ambiguity_check_witness :
    isAmbiguousFailure (applyEditWithStrategy (str "aa")
        { oldText := str "a", newText := str "b" } (ofStrategy .exact) true) = true ↔
      true = true ∧ sampleAmbiguousOutcome.occurrences > 1 ∧
        (({ oldText := str "a", newText := str "b" } : EditOperation).expectedOccurrences = none ∨
          ({ oldText := str "a", newText := str "b" } : EditOperation).expectedOccurrences = some 0 ∨
          ({ oldText := str "a", newText := str "b" } : EditOperation).expectedOccurrences = some 1) :=
  (C2_ambiguity_check (str "aa") { oldText := str "a", newText := str "b" } true
    .exact sampleAmbiguousOutcome (Or.inl rfl) (by decide)).1

/-- C5, confirmed.  The auto cascade: a non-null exact outcome is returned
right after the ambiguity check; the flexible matcher is consulted only when
exact returned nothing, the fuzzy matcher only when both returned nothing; and
when all three return nothing the dispatcher raises `NoMatchFound` whose
message carries the original `oldText` and the attempted strategy list
`exact, flexible, fuzzy`. -/
theorem C5_auto_cascade (content : Str) (e : EditOperation) (failOnAmbiguous : Bool) :
    (∀ r, tryExactMatch content e.oldText e.newText = some (some r) →
      ambiguityCond failOnAmbiguous e r = false →
      applyEditWithStrategy content e .auto failOnAmbiguous = some (.ok r)) ∧
    (tryExactMatch content e.oldText e.newText = some none →
      ∀ r, tryFlexibleMatch content e.oldText e.newText = some r →
        ambiguityCond failOnAmbiguous e r = false →
        applyEditWithStrategy content e .auto failOnAmbiguous = some (.ok r)) ∧
    (tryExactMatch content e.oldText e.newText = some none →
      tryFlexibleMatch content e.oldText e.newText = none →
      ∀ r, tryFuzzyMatch content e.oldText e.newText = some r →
        applyEditWithStrategy content e .auto failOnAmbiguous = some (.ok r)) ∧
    (tryExactMatch content e.oldText e.newText = some none →
      tryFlexibleMatch content e.oldText e.newText = none →
      tryFuzzyMatch content e.oldText e.newText = none →
      applyEditWithStrategy content e .auto failOnAmbiguous =
          some (.error (.noMatchFound (noMatchMsg e [str "exact", str "flexible", str "fuzzy"]))) ∧
        containsSub e.oldText (noMatchMsg e [str "exact", str "flexible", str "fuzzy"]) ∧
        containsSub (str "exact, flexible, fuzzy")
          (noMatchMsg e [str "exact", str "flexible", str "fuzzy"])) := by
  refine ⟨?_, ?_, ?_, ?_⟩
  · intro r hex hc
    simp [applyEditWithStrategy, hex, hc]
  · intro hex r hfl hc
    simp [applyEditWithStrategy, hex, hfl, hc]
  · intro hex hfl r hfz
    simp [applyEditWithStrategy, hex, hfl, hfz]
  · intro hex hfl hfz
    refine ⟨by simp [applyEditWithStrategy, hex, hfl, hfz], ?_, ?_⟩
    · rw [noMatchMsg]
      exact containsSub_appL (containsSub_appL (containsSub_appL (containsSub_appL
        (containsSub_appL (containsSub_appL (containsSub_appL
          (containsSub_appR _ (containsSub_self _)) _) _) _) _) _) _) _
    · rw [noMatchMsg]
      rw [show joinSep (str ", ") [str "exact", str "flexible", str "fuzzy"] =
        str "exact, flexible, fuzzy" by decide]
      exact containsSub_appL (containsSub_appL (containsSub_appL (containsSub_appL
        (containsSub_appR _ (containsSub_self _)) _) _) _) _

/-- Witness for C5 at a concrete input where no strategy matches. -/
theorem C5_auto_cascade_witness :
    applyEditWithStrategy (str "zzz") { oldText := str "qqq", newText := str "y" }
        .auto true =
      some (.error (.noMatchFound (noMatchMsg { oldText := str "qqq", newText := str "y" }
        [str "exact", str "flexible", str "fuzzy"]))) :=
  ((C5_auto_cascade (str "zzz") { oldText := str "qqq", newText := str "y" } true).2.2.2
    (by decide) (by decide) (by decide)).1

theorem applyEditsLoop_length (stgy : ReqStrategy) (foA : Bool) :
    ∀ (edits : List EditOperation) (content fc : Str) (rs : List MatchResult),
      applyEditsLoop stgy foA edits content = some (.ok (fc, rs)) →
        rs.length = edits.length := by
  intro edits
  induction edits with
  | nil =>
    intro content fc rs h
    rw [applyEditsLoop] at h
    simp only [Option.some.injEq, Except.ok.injEq, Prod.mk.injEq] at h
    rw [← h.2]
    rfl
  | cons e rest ih =>
    intro content fc rs h
    rw [applyEditsLoop] at h
    cases hd : applyEditWithStrategy content e stgy foA with
    | none => simp [hd] at h
    | some x =>
      cases x with
      | error err => simp [hd] at h
      | ok r =>
        simp only [hd] at h
        cases hl : applyEditsLoop stgy foA rest r.modifiedContent with
        | none => simp [hl] at h
        | some y =>
          cases y with
          | error err => simp [hl] at h
          | ok pr =>
            obtain ⟨fc2, rs2⟩ := pr
            simp only [hl, Option.some.injEq, Except.ok.injEq, Prod.mk.injEq] at h
            rw [← h.2]
            simp [ih r.modifiedContent fc2 rs2 hl]

/-- C3, confirmed.  The external file-store write is invoked (some returned
second component `some _`) iff the whole edit sequence terminates successfully
and `dryRun` is false; a loop failure produces a `success = false` result
carrying the thrown message and no write; a successful dry run produces
`success = true` with a populated (non-empty) diff and no write; parse or read
failures never write; and the content written is exactly the
line-ending-restored final content.  (A run whose edit loop never terminates —
outer `none` — returns nothing and writes nothing, so the write-iff
equivalence quantifies over the returned value.) -/
theorem C3_persistence_atomicity (args : EditFileArgs) (content : Str) (w : Except Str Unit) :
    ((∃ res wr, editFileTool (.ok args) (.ok content) w = some (res, wr) ∧ wr ≠ none) ↔
      (∃ out, applyEditsLoop args.matchingStrategy args.failOnAmbiguous args.edits
          (normalizeLineEndings content) = some (.ok out)) ∧ args.dryRun = false) ∧
    (∀ err, applyEditsLoop args.matchingStrategy args.failOnAmbiguous args.edits
        (normalizeLineEndings content) = some (.error err) →
      editFileTool (.ok args) (.ok content) w =
        some ({ success := false, error := some err.message }, none)) ∧
    (args.dryRun = true →
      ∀ out, applyEditsLoop args.matchingStrategy args.failOnAmbiguous args.edits
          (normalizeLineEndings content) = some (.ok out) →
        ∃ res, editFileTool (.ok args) (.ok content) w = some (res, none) ∧
          res.success = true ∧ ∃ d, res.diff = some d ∧ d ≠ []) ∧
    (∀ m rd, editFileTool (.error m) rd w =
      some ({ success := false, error := some m }, none)) ∧
    (∀ m, editFileTool (.ok args) (.error m) w =
      some ({ success := false, error := some m }, none)) ∧
    (∀ out, applyEditsLoop args.matchingStrategy args.failOnAmbiguous args.edits
        (normalizeLineEndings content) = some (.ok out) → args.dryRun = false →
      ∃ res, editFileTool (.ok args) (.ok content) w =
        some (res, some (restoreLineEndings out.1 (detectLineEnding content)))) := by
  cases hl : applyEditsLoop args.matchingStrategy args.failOnAmbiguous args.edits
      (normalizeLineEndings content) with
  | none =>
    have htool : editFileTool (.ok args) (.ok content) w = none := by
      simp only [editFileTool, hl]
    refine ⟨?_, ?_, ?_, fun m rd => rfl, fun m => rfl, ?_⟩
    · rw [htool]
      constructor
      · rintro ⟨res, wr, hres, -⟩
        exact absurd hres (by simp)
      · rintro ⟨⟨out, hout⟩, -⟩
        exact absurd hout (by simp)
    · intro err2 hl2
      exact absurd hl2 (by simp)
    · intro _ out2 hl2
      exact absurd hl2 (by simp)
    · intro out2 hl2 _
      exact absurd hl2 (by simp)
  | some x =>
    cases x with
    | error err =>
      have htool : editFileTool (.ok args) (.ok content) w =
          some ({ success := false, error := some err.message }, none) := by
        simp only [editFileTool, hl]
      refine ⟨?_, ?_, ?_, fun m rd => rfl, fun m => rfl, ?_⟩
      · rw [htool]
        constructor
        · rintro ⟨res, wr, hres, hwr⟩
          injection hres with hres
          exact absurd (congrArg Prod.snd hres).symm hwr
        · rintro ⟨⟨out, hout⟩, -⟩
          exact absurd hout (by simp)
      · intro err2 hl2
        injection hl2 with h2
        injection h2 with h2
        subst h2
        exact htool
      · intro _ out2 hl2
        exact absurd hl2 (by simp)
      · intro out2 hl2 _
        exact absurd hl2 (by simp)
    | ok out =>
      obtain ⟨fc, rs⟩ := out
      cases hdr : args.dryRun with
      | true =>
        have htool : editFileTool (.ok args) (.ok content) w =
            some ({ success := true, diff := some (str "[DRY RUN] " ++ str "Applied " ++ natStr args.edits.length ++ str " edit(s)\n\n" ++ diffSummaryOf rs), changes := some ⟨totalLines EditOperation.newText args.edits, totalLines EditOperation.oldText args.edits, args.edits.length⟩ }, none) := by
          simp only [editFileTool, hl, hdr, if_true]
        refine ⟨?_, ?_, ?_, fun m rd => rfl, fun m => rfl, ?_⟩
        · rw [htool]
          constructor
          · rintro ⟨res, wr, hres, hwr⟩
            injection hres with hres
            exact absurd (congrArg Prod.snd hres).symm hwr
          · rintro ⟨-, hdr2⟩
            exact absurd hdr2 (by simp)
        · intro err2 hl2
          exact absurd hl2 (by simp)
        · intro _ out2 hl2
          injection hl2 with hh
          injection hh with hh
          subst hh
          refine ⟨_, htool, rfl, _, rfl, ?_⟩
          intro hcon
          simp only [List.append_eq_nil] at hcon
          exact absurd hcon.1.1.1.1 (by decide)
        · intro out2 hl2 hdr2
          exact absurd hdr2 (by simp)
      | false =>
        cases w with
        | error m =>
          have htool : editFileTool (.ok args) (.ok content) (.error m) =
              some ({ success := false, error := some m },
                some (restoreLineEndings fc (detectLineEnding content))) := by
            simp only [editFileTool, hl, hdr, Bool.false_eq_true, if_false, List.nil_append]
          refine ⟨?_, ?_, ?_, fun mm rd => rfl, fun mm => rfl, ?_⟩
          · rw [htool]
            constructor
            · intro _
              exact ⟨⟨(fc, rs), rfl⟩, rfl⟩
            · intro _
              exact ⟨_, _, rfl, by simp⟩
          · intro err2 hl2
            exact absurd hl2 (by simp)
          · intro hdr2
            exact absurd hdr2 (by simp)
          · intro out2 hl2 _
            injection hl2 with hh
            injection hh with hh
            subst hh
            exact ⟨_, htool⟩
        | ok u =>
          have htool : editFileTool (.ok args) (.ok content) (.ok u) =
              some ({ success := true, diff := some (str "Applied " ++ natStr args.edits.length ++ str " edit(s)\n\n" ++ diffSummaryOf rs), changes := some ⟨totalLines EditOperation.newText args.edits, totalLines EditOperation.oldText args.edits, args.edits.length⟩ }, some (restoreLineEndings fc (detectLineEnding content))) := by
            simp only [editFileTool, hl, hdr, Bool.false_eq_true, if_false, List.nil_append]
          refine ⟨?_, ?_, ?_, fun mm rd => rfl, fun mm => rfl, ?_⟩
          · rw [htool]
            constructor
            · intro _
              exact ⟨⟨(fc, rs), rfl⟩, rfl⟩
            · intro _
              exact ⟨_, _, rfl, by simp⟩
          · intro err2 hl2
            exact absurd hl2 (by simp)
          · intro hdr2
            exact absurd hdr2 (by simp)
          · intro out2 hl2 _
            injection hl2 with hh
            injection hh with hh
            subst hh
            exact ⟨_, htool⟩

/-- Witness for C3 at a concrete input: a successful dry run over content
`"a"`. -/
theorem C3_persistence_atomicity_witness :
    ∃ res, editFileTool (.ok { edits := [{ oldText := str "a", newText := str "b" }], dryRun := true }) (.ok (str "a")) (.ok ()) = some (res, none) ∧
      res.success = true ∧ ∃ d, res.diff = some d ∧ d ≠ [] :=
  (C3_persistence_atomicity
      { edits := [{ oldText := str "a", newText := str "b" }], dryRun := true }
      (str "a") (.ok ())).2.2.1 rfl (str "b", [sampleExactOutcome]) (by decide)

/-- C10, refuted (code bug): the tool interface is not total, so not every
failure can be returned as a value.  For the schema-valid edit
`{oldText: "", newText: "x"}` (§3 places no lower bound on `oldText`) applied
to the non-empty file content `"ab"`, the exact matcher counts `3 > 1`
empty-pattern occurrences and enters the occurrence re-scan loop, which never
advances: `indexOf("", k)` never returns `-1` and the next index is
`matchIndex + 0`.  First conjunct: the loop yields `none` at *every* fuel —
genuine divergence, not a fuel artifact.  Second conjunct: `editFileTool` on
that invocation never produces a result — no `success` value, no caught
failure, no write. -/
theorem C10_total_interface :
    (∀ fuel k, ambiguityLoop [] (str "ab") fuel k = none) ∧
    editFileTool (.ok { edits := [{ oldText := str "", newText := str "x" }] })
      (.ok (str "ab")) (.ok ()) = none :=
  ⟨fun fuel k => ambiguityLoop_nil_pattern (str "ab") fuel k, by decide⟩

theorem windowMatch_iff (contentLines searchLines : List Str) (i : Nat) :
    windowMatch contentLines searchLines i = true ↔
      ∀ j < searchLines.length,
        trimJs (searchLines.getD j []) = trimJs (contentLines.getD (i + j) []) := by
  rw [windowMatch, List.all_eq_true]
  constructor
  · intro h j hj
    simpa using h j (List.mem_range.mpr hj)
  · intro h j hj
    simpa using h j (List.mem_range.mp hj)

theorem filter_range_headD_le (B : Nat) (p : Nat → Bool) :
    ∀ x ∈ (List.range B).filter p, ((List.range B).filter p).headD 0 ≤ x := by
  have hpw : ((List.range B).filter p).Pairwise (· < ·) :=
    List.Pairwise.sublist (List.filter_sublist _) (List.pairwise_lt_range B)
  intro x hx
  cases hf : (List.range B).filter p with
  | nil => rw [hf] at hx; exact absurd hx (by simp)
  | cons h t =>
    rw [hf] at hx hpw
    rcases List.mem_cons.mp hx with rfl | hx2
    · simp
    · simpa using Nat.le_of_lt ((List.pairwise_cons.mp hpw).1 x hx2)

theorem containsSub_joinSep_map (sep : Str) (f : Nat → Str) :
    ∀ (xs : List Nat) (x : Nat), x ∈ xs → containsSub (f x) (joinSep sep (xs.map f))
  | [], x, hx => absurd hx (by simp)
  | [a], x, hx => by
    have hxa : x = a := by simpa using hx
    subst hxa
    simpa [joinSep] using containsSub_self (f x)
  | a :: b :: t, x, hx => by
    rw [List.map_cons, List.map_cons]
    simp only [joinSep]
    rcases List.mem_cons.mp hx with rfl | hx2
    · exact ⟨[], sep ++ joinSep sep (f b :: t.map f), by simp⟩
    · exact containsSub_appR _
        (containsSub_joinSep_map sep f (b :: t) x hx2)

/-- C7, confirmed.  The flexible matcher records a match at start line `i`
exactly when the window fits and every search line equals the corresponding
content line after trimming both; it returns `none` iff there is no such
position; on success `occurrences` is the number of matched positions,
`lineRange` covers the first (least) match, and a warning listing every matched
start line (1-indexed) is present exactly when `occurrences > 1`. -/
theorem C7_flexible_matcher (content oldText newText : Str)
    (hold : normalizeLineEndings oldText = oldText) (hne : oldText ≠ []) :
    (∀ i, i ∈ flexMatches (splitOnChar '\n' content) (splitOnChar '\n' oldText) ↔
      (i + (splitOnChar '\n' oldText).length ≤ (splitOnChar '\n' content).length ∧
        ∀ j < (splitOnChar '\n' oldText).length,
          trimJs ((splitOnChar '\n' oldText).getD j []) =
            trimJs ((splitOnChar '\n' content).getD (i + j) []))) ∧
    (tryFlexibleMatch content oldText newText = none ↔
      flexMatches (splitOnChar '\n' content) (splitOnChar '\n' oldText) = []) ∧
    (∀ r, tryFlexibleMatch content oldText newText = some r →
      r.occurrences =
          (flexMatches (splitOnChar '\n' content) (splitOnChar '\n' oldText)).length ∧
        (∀ m ∈ flexMatches (splitOnChar '\n' content) (splitOnChar '\n' oldText),
          (flexMatches (splitOnChar '\n' content) (splitOnChar '\n' oldText)).headD 0 ≤ m) ∧
        r.lineRange = some
          ⟨(flexMatches (splitOnChar '\n' content) (splitOnChar '\n' oldText)).headD 0 + 1,
            (flexMatches (splitOnChar '\n' content) (splitOnChar '\n' oldText)).headD 0 + 1 +
              (splitOnChar '\n' oldText).length - 1⟩ ∧
        (r.occurrences > 1 →
          r.warning = some (str "Found " ++
              natStr (flexMatches (splitOnChar '\n' content)
                (splitOnChar '\n' oldText)).length ++
              str " matches at lines: " ++
              joinSep (str ", ") ((flexMatches (splitOnChar '\n' content)
                (splitOnChar '\n' oldText)).map (fun m => natStr (m + 1)))) ∧
            ∀ m ∈ flexMatches (splitOnChar '\n' content) (splitOnChar '\n' oldText),
              containsSub (natStr (m + 1)) (str "Found " ++
                natStr (flexMatches (splitOnChar '\n' content)
                  (splitOnChar '\n' oldText)).length ++
                str " matches at lines: " ++
                joinSep (str ", ") ((flexMatches (splitOnChar '\n' content)
                  (splitOnChar '\n' oldText)).map (fun m => natStr (m + 1))))) ∧
        (r.occurrences ≤ 1 → r.warning = none)) := by
  have hsne : splitOnChar '\n' oldText ≠ [] := splitOnChar_ne_nil '\n' oldText
  have hslen : 1 ≤ (splitOnChar '\n' oldText).length :=
    List.length_pos.mpr hsne
  refine ⟨?_, ?_, ?_⟩
  · intro i
    rw [flexMatches, List.mem_filter, List.mem_range, windowMatch_iff]
    constructor
    · rintro ⟨hb, hw⟩
      exact ⟨by omega, hw⟩
    · rintro ⟨hb, hw⟩
      exact ⟨by omega, hw⟩
  · rw [tryFlexibleMatch]
    simp only [hold, if_neg hsne]
    split
    · rename_i hms
      simp [hms]
    · rename_i hms
      simp [hms]
  · intro r hr
    rw [tryFlexibleMatch] at hr
    simp only [hold, if_neg hsne] at hr
    split at hr
    · exact absurd hr (by simp)
    · rename_i hms
      injection hr with hr
      subst hr
      refine ⟨rfl, filter_range_headD_le _ _, rfl, ?_, ?_⟩
      · intro hocc
        simp only at hocc
        rw [if_pos (by omega)]
        refine ⟨rfl, ?_⟩
        intro m hm
        exact containsSub_appR _
          (containsSub_joinSep_map (str ", ") (fun m => natStr (m + 1)) _ m hm)
      · intro hocc
        simp only at hocc
        rw [if_neg (by omega)]

/-- Witness for C7 at a concrete input. -/
theorem C7_flexible_matcher_witness :
    tryFlexibleMatch (str " x ") (str "zz") (str "y") = none ↔
      flexMatches (splitOnChar '\n' (str " x ")) (splitOnChar '\n' (str "zz")) = [] :=
  (C7_flexible_matcher (str " x ") (str "zz") (str "y") (by decide) (by decide)).2.1

theorem getD_of_drop_eq : ∀ (s : Str) (i : Nat) (c : Char) (rest : Str) (d : Char),
    s.drop i = c :: rest → s.getD i d = c := by
  intro s
  induction s with
  | nil =>
    intro i c rest d h
    simp at h
  | cons a as ih =>
    intro i c rest d h
    cases i with
    | zero =>
      simp at h
      simp [h.1]
    | succ i =>
      rw [List.drop_succ_cons] at h
      simpa using ih i c rest d h

theorem fuzzyScanGo_spec (tokens : List Str) (s : Str) :
    ∀ (rem : Str) (i p e : Nat), rem = s.drop i →
      fuzzyScanGo tokens rem i (lineStartAt s i) = some (p, e) →
      i ≤ p ∧ lineStartAt s p = true ∧
        matchTokensGo tokens (s.drop p) 0 = some (e - p) ∧ p ≤ e ∧
        ∀ q, i ≤ q → q < p → lineStartAt s q = true →
          matchTokensGo tokens (s.drop q) 0 = none := by
  intro rem
  induction rem with
  | nil =>
    intro i p e hrem h
    rw [fuzzyScanGo] at h
    exact absurd h (by simp)
  | cons c rest ih =>
    intro i p e hrem h
    have hrest : rest = s.drop (i + 1) := by
      have hh := congrArg (List.drop 1) hrem
      simp only [List.drop_drop] at hh
      simpa [Nat.add_comm] using hh
    have hnext : isLineTerminator c = lineStartAt s (i + 1) := by
      rw [lineStartAt, show i + 1 - 1 = i from rfl,
        getD_of_drop_eq s i c rest 'x' hrem.symm]
      simp
    cases hls : lineStartAt s i with
    | true =>
      rw [hls] at h
      simp only [fuzzyScanGo, if_true] at h
      cases hmt : matchTokensGo tokens (c :: rest) 0 with
      | some consumed =>
        rw [hmt] at h
        injection h with h
        have hpe : i = p ∧ i + consumed = e := by
          constructor
          · exact congrArg Prod.fst h
          · exact congrArg Prod.snd h
        obtain ⟨rfl, rfl⟩ := hpe
        refine ⟨Nat.le_refl _, hls, ?_, by omega, ?_⟩
        · rw [← hrem]
          simpa [Nat.add_sub_cancel_left] using hmt
        · intro q h1 h2
          omega
      | none =>
        rw [hmt] at h
        rw [hnext] at h
        obtain ⟨h1, h2, h3, h4, h5⟩ := ih (i + 1) p e hrest h
        refine ⟨by omega, h2, h3, h4, ?_⟩
        intro q hq1 hq2 hq3
        rcases Nat.eq_or_lt_of_le hq1 with rfl | hlt
        · rw [← hrem]
          exact hmt
        · exact h5 q hlt hq2 hq3
    | false =>
      rw [hls] at h
      simp only [fuzzyScanGo, Bool.false_eq_true, if_false] at h
      rw [hnext] at h
      obtain ⟨h1, h2, h3, h4, h5⟩ := ih (i + 1) p e hrest h
      refine ⟨by omega, h2, h3, h4, ?_⟩
      intro q hq1 hq2 hq3
      rcases Nat.eq_or_lt_of_le hq1 with rfl | hlt
      · rw [hq3] at hls
        exact absurd hls (by simp)
      · exact h5 q hlt hq2 hq3

/-- C8, confirmed.  When the fuzzy matcher produces an outcome, the scan found
the first anchored match: its start `p` is a line start at which the token
pattern matches, no earlier line start matches, and the modified content is the
original content with only the span `[p, e)` substituted — everything from `e`
on, in particular any later occurrence, is kept byte-for-byte.  The outcome
always reports `occurrences = 1` and always carries the advisory review
warning. -/
theorem C8_fuzzy_single (content oldText newText : Str) (r : MatchResult)
    (h : tryFuzzyMatch content oldText newText = some r) :
    ∃ p e, fuzzyScan (fuzzyTokens oldText) content = some (p, e) ∧
      p ≤ e ∧
      lineStartAt content p = true ∧
      matchTokensGo (fuzzyTokens oldText) (content.drop p) 0 = some (e - p) ∧
      (∀ q, q < p → lineStartAt content q = true →
        matchTokensGo (fuzzyTokens oldText) (content.drop q) 0 = none) ∧
      (∃ repl, r.modifiedContent = content.take p ++ repl ++ content.drop e) ∧
      r.occurrences = 1 ∧
      r.warning = some fuzzyWarningStr := by
  rw [tryFuzzyMatch] at h
  by_cases htk : fuzzyTokens oldText = []
  · rw [if_pos htk] at h
    exact absurd h (by simp)
  · rw [if_neg htk] at h
    cases hscan : fuzzyScan (fuzzyTokens oldText) content with
    | none => rw [hscan] at h; exact absurd h (by simp)
    | some pe =>
      obtain ⟨p, e⟩ := pe
      rw [hscan] at h
      injection h with h
      subst h
      have hstart : lineStartAt content 0 = true := by simp [lineStartAt]
      have hcall : fuzzyScanGo (fuzzyTokens oldText) content 0 (lineStartAt content 0) =
          some (p, e) := by
        rw [hstart]
        exact hscan
      obtain ⟨-, h2, h3, h4, h5⟩ :=
        fuzzyScanGo_spec (fuzzyTokens oldText) content content 0 p e (by simp) hcall
      exact ⟨p, e, rfl, h4, h2, h3,
        fun q hq => h5 q (Nat.zero_le q) hq, ⟨_, rfl⟩, rfl, rfl⟩

/-- Witness for C8 at a concrete input (content `" a"`, `oldText = "a"`). -/
theorem C8_fuzzy_single_witness :
    ∃ p e, fuzzyScan (fuzzyTokens (str "a")) (str " a") = some (p, e) ∧
      p ≤ e ∧
      lineStartAt (str " a") p = true ∧
      matchTokensGo (fuzzyTokens (str "a")) ((str " a").drop p) 0 = some (e - p) ∧
      (∀ q, q < p → lineStartAt (str " a") q = true →
        matchTokensGo (fuzzyTokens (str "a")) ((str " a").drop q) 0 = none) ∧
      (∃ repl, (str " b" : Str) = (str " a").take p ++ repl ++ (str " a").drop e) ∧
      (1 : Nat) = 1 ∧
      (some fuzzyWarningStr : Option Str) = some fuzzyWarningStr := by
  have happ := C8_fuzzy_single (str " a") (str "a") (str "b")
    { strategy := .fuzzy
      occurrences := 1
      modifiedContent := str " b"
      message := str "Fuzzy match found near line 1"
      warning := some fuzzyWarningStr
      lineRange := some ⟨1, 1⟩ } (by decide)
  simpa using happ

theorem mem_splitOnChar (sep : Char) : ∀ (s part : Str), part ∈ splitOnChar sep s →
    ∀ a ∈ part, a ∈ s := by
  intro s
  induction s with
  | nil =>
    intro part hp a ha
    simp [splitOnChar] at hp
    subst hp
    exact absurd ha (by simp)
  | cons c rest ih =>
    intro part hp a ha
    rw [splitOnChar] at hp
    split at hp
    · rcases List.mem_cons.mp hp with rfl | hp2
      · exact absurd ha (by simp)
      · exact List.mem_cons_of_mem _ (ih part hp2 a ha)
    · cases hsp : splitOnChar sep rest with
      | nil => exact absurd hsp (splitOnChar_ne_nil sep rest)
      | cons g gs =>
        rw [hsp] at hp
        rcases List.mem_cons.mp hp with rfl | hp2
        · rcases List.mem_cons.mp ha with rfl | ha2
          · simp
          · exact List.mem_cons_of_mem _ (ih g (by rw [hsp]; simp) a ha2)
        · exact List.mem_cons_of_mem _ (ih part (by rw [hsp]; simp [hp2]) a ha)

theorem mem_trimJs (s : Str) (a : Char) (h : a ∈ trimJs s) : a ∈ s := by
  rw [trimJs] at h
  rw [List.mem_reverse] at h
  have h2 := (List.dropWhile_sublist _).subset h
  rw [List.mem_reverse] at h2
  exact (List.dropWhile_sublist _).subset h2

theorem mem_joinSep (sep : Str) : ∀ (xs : List Str) (a : Char), a ∈ joinSep sep xs →
    a ∈ sep ∨ ∃ x ∈ xs, a ∈ x
  | [], a, h => absurd h (by simp [joinSep])
  | [x], a, h => by
    rw [joinSep] at h
    exact Or.inr ⟨x, by simp, h⟩
  | x :: y :: t, a, h => by
    simp only [joinSep] at h
    rcases List.mem_append.mp h with h2 | h2
    · rcases List.mem_append.mp h2 with h3 | h3
      · exact Or.inr ⟨x, by simp, h3⟩
      · exact Or.inl h3
    · rcases mem_joinSep sep (y :: t) a h2 with h3 | ⟨z, hz, haz⟩
      · exact Or.inl h3
      · exact Or.inr ⟨z, List.mem_cons_of_mem _ hz, haz⟩

theorem mem_takeWhile_pred (p : Char → Bool) : ∀ (l : Str) (a : Char),
    a ∈ l.takeWhile p → p a = true := by
  intro l
  induction l with
  | nil => intro a h; simp [List.takeWhile] at h
  | cons c rest ih =>
    intro a h
    rw [List.takeWhile] at h
    cases hp : p c with
    | true =>
      rw [hp] at h
      rcases List.mem_cons.mp h with rfl | h2
      · exact hp
      · exact ih a h2
    | false => rw [hp] at h; exact absurd h (by simp)

theorem mem_normalizeLineEndings : ∀ (s : Str) (a : Char),
    a ∈ normalizeLineEndings s → a ∈ s
  | [], a, h => h
  | [c], a, h => h
  | c1 :: c2 :: rest, a, h => by
    rw [normalizeLineEndings] at h
    split at h
    · rename_i hcond
      rw [Bool.and_eq_true, decide_eq_true_eq, decide_eq_true_eq] at hcond
      rcases List.mem_cons.mp h with rfl | h2
      · simp [hcond.2]
      · exact List.mem_cons_of_mem _ (List.mem_cons_of_mem _
          (mem_normalizeLineEndings rest a h2))
    · rcases List.mem_cons.mp h with rfl | h2
      · simp
      · exact List.mem_cons_of_mem _ (mem_normalizeLineEndings (c2 :: rest) a h2)

theorem not_mem_getD (ls : List Str) (m : Nat) (ch : Char)
    (h : ∀ l ∈ ls, ch ∉ l) : ch ∉ ls.getD m [] := by
  by_cases hm : m < ls.length
  · have : ls.getD m [] ∈ ls := by
      rw [List.getD_eq_getElem ls [] hm]
      exact List.getElem_mem hm
    exact h _ this
  · rw [List.getD_eq_default ls [] (by omega)]
    simp

theorem expandRepl_not_mem (g : Option Str) (m b a : Str) (ch : Char)
    (hm : ch ∉ m) (hb : ch ∉ b) (ha : ch ∉ a) (hg : ∀ gg, g = some gg → ch ∉ gg) :
    ∀ t : Str, ch ∉ t → ch ∉ expandRepl g m b a t
  | [], _ => by simp [expandRepl]
  | [c], ht => by
    rw [expandRepl]
    simpa using fun hh => ht (by simp [hh])
  | c :: d :: rest2, ht => by
    have hc : ch ≠ c := fun hh => ht (by simp [hh])
    have hd2 : ch ∉ d :: rest2 := fun hh => ht (List.mem_cons_of_mem _ hh)
    have hr2 : ch ∉ rest2 := fun hh => hd2 (List.mem_cons_of_mem _ hh)
    have ih2 := expandRepl_not_mem g m b a ch hm hb ha hg rest2 hr2
    have ihd := expandRepl_not_mem g m b a ch hm hb ha hg (d :: rest2) hd2
    simp only [expandRepl]
    by_cases h1 : c = dollarChar
    · rw [if_pos h1]
      have hchd : ch ≠ dollarChar := h1 ▸ hc
      by_cases h2 : d = dollarChar
      · rw [if_pos h2]
        intro hh
        rcases List.mem_cons.mp hh with rfl | hh2
        · exact hchd rfl
        · exact ih2 hh2
      · rw [if_neg h2]
        by_cases h3 : d = ampChar
        · rw [if_pos h3]
          intro hh
          rcases List.mem_append.mp hh with hh2 | hh2
          · exact hm hh2
          · exact ih2 hh2
        · rw [if_neg h3]
          by_cases h4 : d = graveChar
          · rw [if_pos h4]
            intro hh
            rcases List.mem_append.mp hh with hh2 | hh2
            · exact hb hh2
            · exact ih2 hh2
          · rw [if_neg h4]
            by_cases h5 : d = aposChar
            · rw [if_pos h5]
              intro hh
              rcases List.mem_append.mp hh with hh2 | hh2
              · exact ha hh2
              · exact ih2 hh2
            · rw [if_neg h5]
              cases g with
              | some gg =>
                show ch ∉ (if d = '1' then gg ++ expandRepl (some gg) m b a rest2
                  else c :: expandRepl (some gg) m b a (d :: rest2))
                by_cases h6 : d = '1'
                · rw [if_pos h6]
                  intro hh
                  rcases List.mem_append.mp hh with hh2 | hh2
                  · exact hg gg rfl hh2
                  · exact ih2 hh2
                · rw [if_neg h6]
                  intro hh
                  rcases List.mem_cons.mp hh with rfl | hh2
                  · exact hc rfl
                  · exact ihd hh2
              | none =>
                show ch ∉ (c :: expandRepl none m b a (d :: rest2))
                intro hh
                rcases List.mem_cons.mp hh with rfl | hh2
                · exact hc rfl
                · exact ihd hh2
    · rw [if_neg h1]
      intro hh
      rcases List.mem_cons.mp hh with rfl | hh2
      · exact hc rfl
      · exact ihd hh2

theorem replaceAllGo_not_mem (p rt s0 : Str) (ch : Char)
    (hrt : ch ∉ rt) (hs0 : ch ∉ s0) :
    ∀ (s : Str) (i skip : Nat), ch ∉ s → ch ∉ replaceAllGo p rt s0 s i skip
  | [], _, _, _ => by simp [replaceAllGo]
  | c :: rest, i, skip + 1, hs => by
    rw [replaceAllGo]
    exact replaceAllGo_not_mem p rt s0 ch hrt hs0 rest (i + 1) skip
      (fun hh => hs (List.mem_cons_of_mem _ hh))
  | c :: rest, i, 0, hs => by
    have hrest : ch ∉ rest := fun hh => hs (List.mem_cons_of_mem _ hh)
    rw [replaceAllGo]
    split
    · rename_i hpre
      have hp : ch ∉ p := by
        rw [isPrefixOf_iff_exists] at hpre
        obtain ⟨t, ht⟩ := hpre
        intro hh
        exact hs (by rw [ht]; exact List.mem_append_left _ hh)
      intro hh
      rcases List.mem_append.mp hh with h2 | h2
      · exact expandRepl_not_mem none p (s0.take i) (s0.drop (i + p.length)) ch hp
          (fun hh2 => hs0 ((List.take_sublist i s0).subset hh2))
          (fun hh2 => hs0 ((List.drop_sublist _ s0).subset hh2))
          (by simp) rt hrt h2
      · exact replaceAllGo_not_mem p rt s0 ch hrt hs0 rest (i + 1) (p.length - 1) hrest h2
    · intro hh
      rcases List.mem_cons.mp hh with rfl | h2
      · exact hs (by simp)
      · exact replaceAllGo_not_mem p rt s0 ch hrt hs0 rest (i + 1) 0 hrest h2

theorem replaceAllEmptyGo_not_mem (rt s0 : Str) (ch : Char)
    (hrt : ch ∉ rt) (hs0 : ch ∉ s0) :
    ∀ (s : Str) (i : Nat), ch ∉ s → ch ∉ replaceAllEmptyGo rt s0 s i
  | [], i, _ => by
    rw [replaceAllEmptyGo]
    exact expandRepl_not_mem none [] (s0.take i) (s0.drop i) ch (by simp)
      (fun hh => hs0 ((List.take_sublist i s0).subset hh))
      (fun hh => hs0 ((List.drop_sublist i s0).subset hh))
      (by simp) rt hrt
  | c :: rest, i, hs => by
    rw [replaceAllEmptyGo]
    intro hh
    rcases List.mem_append.mp hh with h2 | h2
    · exact expandRepl_not_mem none [] (s0.take i) (s0.drop i) ch (by simp)
        (fun hh2 => hs0 ((List.take_sublist i s0).subset hh2))
        (fun hh2 => hs0 ((List.drop_sublist i s0).subset hh2))
        (by simp) rt hrt h2
    · rcases List.mem_cons.mp h2 with rfl | h3
      · exact hs (by simp)
      · exact replaceAllEmptyGo_not_mem rt s0 ch hrt hs0 rest (i + 1)
          (fun hh2 => hs (List.mem_cons_of_mem _ hh2)) h3

theorem getD_map_of_lt (f : Str → Str) : ∀ (t : List Str) (j : Nat), j < t.length →
    (t.map f).getD j [] = f (t.getD j []) := by
  intro t
  induction t with
  | nil => intro j hj; simp at hj
  | cons x xs ih =>
    intro j hj
    cases j with
    | zero => simp
    | succ j => simpa using ih j (by simpa using hj)

theorem flexIndentLines_not_mem (ind : Str) (replLines : List Str) (ch : Char)
    (hind : ch ∉ ind) (hrepl : ∀ l ∈ replLines, ch ∉ l) :
    ∀ x ∈ flexIndentLines ind replLines, ch ∉ x := by
  intro x hx
  cases replLines with
  | nil => simp [flexIndentLines] at hx
  | cons l0 t =>
    rw [flexIndentLines] at hx
    rcases List.mem_cons.mp hx with rfl | hx2
    · intro hh
      rcases List.mem_append.mp hh with h2 | h2
      · exact hind h2
      · exact hrepl l0 (by simp) (mem_trimJs _ _ h2)
    · obtain ⟨l, hlmem, rfl⟩ := List.mem_map.mp hx2
      by_cases hb : trimJs l = []
      · simp [hb]
      · rw [if_neg hb]
        intro hh
        rcases List.mem_append.mp hh with h2 | h2
        · exact hind h2
        · exact hrepl l (List.mem_cons_of_mem _ hlmem) (mem_trimJs _ _ h2)

theorem fuzzyIndentLines_not_mem (ind : Str) (replLines : List Str) (ch : Char)
    (hind : ch ∉ ind) (hrepl : ∀ l ∈ replLines, ch ∉ l) :
    ∀ x ∈ fuzzyIndentLines ind replLines, ch ∉ x := by
  intro x hx
  obtain ⟨l, hlmem, rfl⟩ := List.mem_map.mp hx
  by_cases hb : trimJs l = []
  · simp [hb]
  · rw [if_neg hb]
    intro hh
    rcases List.mem_append.mp hh with h2 | h2
    · exact hind h2
    · exact hrepl l hlmem (mem_trimJs _ _ h2)

theorem spliceOne_not_mem (replLines : List Str) (L : Nat) (ch : Char)
    (hch : ch ≠ '\n') (hrepl : ∀ l ∈ replLines, ch ∉ l)
    (ls : List Str) (hls : ∀ l ∈ ls, ch ∉ l) (m : Nat) :
    ∀ l ∈ spliceOne replLines L ls m, ch ∉ l := by
  intro l hl
  rw [spliceOne] at hl
  rcases List.mem_append.mp hl with h2 | h2
  · rcases List.mem_append.mp h2 with h3 | h3
    · exact hls l ((List.take_sublist m ls).subset h3)
    · have hl2 : l = joinSep (str "\n")
          (flexIndentLines (leadingWhitespace (ls.getD m [])) replLines) := by
        simpa using h3
      subst hl2
      intro hmem
      have hind : ch ∉ leadingWhitespace (ls.getD m []) := fun hh =>
        not_mem_getD ls m ch hls ((List.takeWhile_sublist _).subset hh)
      rcases mem_joinSep _ _ _ hmem with hsep | ⟨x, hx, haxx⟩
      · exact hch (by simpa [str] using hsep)
      · exact flexIndentLines_not_mem _ _ ch hind hrepl x hx haxx
  · exact hls l ((List.drop_sublist _ ls).subset h2)

theorem foldl_spliceOne_not_mem (replLines : List Str) (L : Nat) (ch : Char)
    (hch : ch ≠ '\n') (hrepl : ∀ l ∈ replLines, ch ∉ l) :
    ∀ (ms : List Nat) (ls : List Str), (∀ l ∈ ls, ch ∉ l) →
      ∀ l ∈ ms.foldl (spliceOne replLines L) ls, ch ∉ l
  | [], _, hls => hls
  | m :: ms, ls, hls => by
    rw [List.foldl_cons]
    exact foldl_spliceOne_not_mem replLines L ch hch hrepl ms _
      (spliceOne_not_mem replLines L ch hch hrepl ls hls m)

theorem crlfExclusive_cons (c : Char) (h1 : c ≠ '\r') (h2 : c ≠ '\n') :
    ∀ X : Str, crlfExclusive (c :: X) = crlfExclusive X := by
  intro X
  cases X with
  | nil => simp [crlfExclusive, h1, h2]
  | cons x xs =>
    rw [crlfExclusive, if_neg h1]
    simp [h2]

theorem crlfExclusive_norm_no_cr : ∀ (n : Nat) (s : Str), s.length ≤ n →
    crlfExclusive s = true → '\r' ∉ normalizeLineEndings s := by
  intro n
  induction n with
  | zero =>
    intro s hs _
    have : s = [] := List.length_eq_zero.mp (Nat.le_zero.mp hs)
    subst this
    simp [normalizeLineEndings]
  | succ n ih =>
    intro s hs hex
    match s with
    | [] => simp [normalizeLineEndings]
    | [c] =>
      rw [crlfExclusive, decide_eq_true_eq] at hex
      rw [normalizeLineEndings]
      simpa using fun hh => hex.1 hh.symm
    | c1 :: c2 :: rest =>
      rw [crlfExclusive] at hex
      rw [normalizeLineEndings]
      by_cases h1 : c1 = '\r'
      · rw [if_pos h1] at hex
        rw [Bool.and_eq_true, decide_eq_true_eq] at hex
        rw [if_pos (by simp [h1, hex.1])]
        intro hh
        rcases List.mem_cons.mp hh with hq | hq
        · exact absurd hq (by decide)
        · exact ih rest (by simp at hs; omega) hex.2 hq
      · rw [if_neg h1] at hex
        rw [Bool.and_eq_true, decide_eq_true_eq] at hex
        rw [if_neg (by simp [h1])]
        intro hh
        rcases List.mem_cons.mp hh with hq | hq
        · exact h1 hq.symm
        · exact ih (c2 :: rest) (by simp at hs ⊢; omega) hex.2 hq

theorem norm_no_cr (s : Str) (hex : crlfExclusive s = true) :
    '\r' ∉ normalizeLineEndings s :=
  crlfExclusive_norm_no_cr s.length s (Nat.le_refl _) hex

theorem restore_crlfExclusive : ∀ (s : Str), '\r' ∉ s →
    crlfExclusive (restoreLineEndings s .crlf) = true := by
  intro s
  induction s with
  | nil => intro _; rfl
  | cons c rest ih =>
    intro hs
    have hrest : '\r' ∉ rest := fun hh => hs (List.mem_cons_of_mem _ hh)
    have hcr : c ≠ '\r' := fun hh => hs (by simp [hh])
    simp only [restoreLineEndings, List.flatMap_cons] at ih ⊢
    by_cases hC : c = '\n'
    · rw [if_pos hC]
      show crlfExclusive ('\r' :: '\n' ::
        (rest.flatMap fun c => if c = '\n' then ['\r', '\n'] else [c])) = true
      rw [crlfExclusive, if_pos rfl]
      simpa using ih hrest
    · rw [if_neg hC]
      show crlfExclusive (c ::
        (rest.flatMap fun c => if c = '\n' then ['\r', '\n'] else [c])) = true
      rw [crlfExclusive_cons c hcr hC]
      exact ih hrest

theorem tryExactMatch_no_cr (content oldText newText : Str) (r : MatchResult)
    (hc : '\r' ∉ content) (hn : '\r' ∉ newText)
    (h : tryExactMatch content oldText newText = some (some r)) :
    '\r' ∉ r.modifiedContent := by
  have hrt : '\r' ∉ normalizeLineEndings newText := fun hh =>
    hn (mem_normalizeLineEndings _ _ hh)
  rw [tryExactMatch] at h
  split at h
  · exact absurd h (by simp)
  · split at h
    · cases hlocs : ambiguityLocations (normalizeLineEndings oldText) content with
      | none =>
        simp only [hlocs] at h
        exact absurd h (by simp)
      | some locs =>
        simp only [hlocs] at h
        injection h with h
        injection h with h
        subst h
        show '\r' ∉ replaceAllJS _ _ content
        rw [replaceAllJS]
        split
        · exact replaceAllEmptyGo_not_mem _ _ _ hrt hc content 0 hc
        · exact replaceAllGo_not_mem _ _ _ _ hrt hc content 0 0 hc
    · injection h with h
      injection h with h
      subst h
      show '\r' ∉ replaceAllJS _ _ content
      rw [replaceAllJS]
      split
      · exact replaceAllEmptyGo_not_mem _ _ _ hrt hc content 0 hc
      · exact replaceAllGo_not_mem _ _ _ _ hrt hc content 0 0 hc

theorem tryFlexibleMatch_no_cr (content oldText newText : Str) (r : MatchResult)
    (hc : '\r' ∉ content) (hn : '\r' ∉ newText)
    (h : tryFlexibleMatch content oldText newText = some r) : '\r' ∉ r.modifiedContent := by
  simp only [tryFlexibleMatch] at h
  split at h
  · exact absurd h (by simp)
  · split at h
    · exact absurd h (by simp)
    · injection h with h
      subst h
      show '\r' ∉ joinSep (str "\n") _
      intro hh
      have hcl : ∀ l ∈ splitOnChar '\n' content, '\r' ∉ l := fun l hl hh2 =>
        hc (mem_splitOnChar '\n' content l hl _ hh2)
      have hrl : ∀ l ∈ splitOnChar '\n' (normalizeLineEndings newText), '\r' ∉ l :=
        fun l hl hh2 =>
          hn (mem_normalizeLineEndings _ _ (mem_splitOnChar '\n' _ l hl _ hh2))
      rcases mem_joinSep _ _ _ hh with hsep | ⟨x, hx, haxx⟩
      · have hcontra : ('\r' : Char) = '\n' := by simpa [str] using hsep
        exact absurd hcontra (by decide)
      · exact foldl_spliceOne_not_mem _ _ '\r' (by decide) hrl _ _ hcl x hx haxx

theorem tryFuzzyMatch_no_cr (content oldText newText : Str) (r : MatchResult)
    (hc : '\r' ∉ content) (hn : '\r' ∉ newText)
    (h : tryFuzzyMatch content oldText newText = some r) : '\r' ∉ r.modifiedContent := by
  rw [tryFuzzyMatch] at h
  by_cases htk : fuzzyTokens oldText = []
  · rw [if_pos htk] at h
    exact absurd h (by simp)
  · rw [if_neg htk] at h
    cases hscan : fuzzyScan (fuzzyTokens oldText) content with
    | none => rw [hscan] at h; exact absurd h (by simp)
    | some pe =>
      obtain ⟨p, e⟩ := pe
      rw [hscan] at h
      injection h with h
      subst h
      show '\r' ∉ content.take p ++ _ ++ content.drop e
      have hind : '\r' ∉ (content.drop p).takeWhile isJsWhitespace := fun hh =>
        hc ((List.drop_sublist p content).subset ((List.takeWhile_sublist _).subset hh))
      have hrepl : ∀ l ∈ splitOnChar '\n' newText, '\r' ∉ l := fun l hl hh2 =>
        hn (mem_splitOnChar '\n' newText l hl _ hh2)
      have htmpl : '\r' ∉ joinSep (str "\n")
          (fuzzyIndentLines ((content.drop p).takeWhile isJsWhitespace)
            (splitOnChar '\n' newText)) := by
        intro hh
        rcases mem_joinSep _ _ _ hh with hsep | ⟨x, hx, haxx⟩
        · have hcontra : ('\r' : Char) = '\n' := by simpa [str] using hsep
          exact absurd hcontra (by decide)
        · exact fuzzyIndentLines_not_mem _ _ '\r' hind hrepl x hx haxx
      intro hh
      rcases List.mem_append.mp hh with h2 | h2
      · rcases List.mem_append.mp h2 with h3 | h3
        · exact hc ((List.take_sublist p content).subset h3)
        · refine expandRepl_not_mem _ _ _ _ '\r' ?_ ?_ ?_ ?_ _ htmpl h3
          · exact fun hh2 =>
              hc ((List.drop_sublist p content).subset ((List.take_sublist _ _).subset hh2))
          · exact fun hh2 => hc ((List.take_sublist p content).subset hh2)
          · exact fun hh2 => hc ((List.drop_sublist e content).subset hh2)
          · intro gg hgg
            injection hgg with hgg
            subst hgg
            exact hind
      · exact hc ((List.drop_sublist e content).subset h2)

theorem applyEdit_ok_matcher (content : Str) (e : EditOperation) (stgy : ReqStrategy)
    (foA : Bool) (r : MatchResult)
    (h : applyEditWithStrategy content e stgy foA = some (.ok r)) :
    tryExactMatch content e.oldText e.newText = some (some r) ∨
    tryFlexibleMatch content e.oldText e.newText = some r ∨
    tryFuzzyMatch content e.oldText e.newText = some r := by
  have hsingle : ∀ s : Strategy, applySingleStrategy s content e foA = some (.ok r) →
      runSingle s content e = some (some r) := by
    intro s hs
    rw [applySingleStrategy] at hs
    cases hrs : runSingle s content e with
    | none => rw [hrs] at hs; exact absurd hs (by simp)
    | some x =>
      cases x with
      | none =>
        simp only [hrs] at hs
        exact absurd hs (by simp)
      | some r2 =>
        simp only [hrs] at hs
        split at hs
        · exact absurd hs (by simp)
        · split at hs
          · exact absurd hs (by simp)
          · injection hs with hs
            injection hs with hs
            rw [hs]
  cases stgy with
  | auto =>
    rw [applyEditWithStrategy] at h
    cases hex : tryExactMatch content e.oldText e.newText with
    | none => rw [hex] at h; exact absurd h (by simp)
    | some o =>
      cases o with
      | some r2 =>
        simp only [hex] at h
        split at h
        · exact absurd h (by simp)
        · injection h with h
          injection h with h
          exact Or.inl (by rw [h])
      | none =>
        simp only [hex] at h
        cases hfl : tryFlexibleMatch content e.oldText e.newText with
        | some r2 =>
          simp only [hfl] at h
          split at h
          · exact absurd h (by simp)
          · injection h with h
            injection h with h
            exact Or.inr (Or.inl (by rw [h]))
        | none =>
          simp only [hfl] at h
          cases hfz : tryFuzzyMatch content e.oldText e.newText with
          | some r2 =>
            simp only [hfz] at h
            injection h with h
            injection h with h
            exact Or.inr (Or.inr (by rw [h]))
          | none => simp only [hfz] at h; exact absurd h (by simp)
  | exact => exact Or.inl (hsingle .exact h)
  | flexible =>
    have hfl := hsingle .flexible h
    simp only [runSingle, Option.some.injEq] at hfl
    exact Or.inr (Or.inl hfl)
  | fuzzy =>
    have hfz := hsingle .fuzzy h
    simp only [runSingle, Option.some.injEq] at hfz
    exact Or.inr (Or.inr hfz)

theorem applyEdit_no_cr (content : Str) (e : EditOperation) (stgy : ReqStrategy)
    (foA : Bool) (r : MatchResult)
    (hc : '\r' ∉ content) (hn : '\r' ∉ e.newText)
    (h : applyEditWithStrategy content e stgy foA = some (.ok r)) :
    '\r' ∉ r.modifiedContent := by
  rcases applyEdit_ok_matcher content e stgy foA r h with h1 | h1 | h1
  · exact tryExactMatch_no_cr content e.oldText e.newText r hc hn h1
  · exact tryFlexibleMatch_no_cr content e.oldText e.newText r hc hn h1
  · exact tryFuzzyMatch_no_cr content e.oldText e.newText r hc hn h1

theorem applyEditsLoop_no_cr (stgy : ReqStrategy) (foA : Bool) :
    ∀ (edits : List EditOperation) (content fc : Str) (rs : List MatchResult),
      '\r' ∉ content → (∀ e ∈ edits, '\r' ∉ e.newText) →
      applyEditsLoop stgy foA edits content = some (.ok (fc, rs)) → '\r' ∉ fc := by
  intro edits
  induction edits with
  | nil =>
    intro content fc rs hc _ h
    rw [applyEditsLoop] at h
    simp only [Option.some.injEq, Except.ok.injEq, Prod.mk.injEq] at h
    rw [← h.1]
    exact hc
  | cons e rest ih =>
    intro content fc rs hc hn h
    rw [applyEditsLoop] at h
    cases hd : applyEditWithStrategy content e stgy foA with
    | none => simp [hd] at h
    | some x =>
      cases x with
      | error err => simp [hd] at h
      | ok r =>
        simp only [hd] at h
        cases hl : applyEditsLoop stgy foA rest r.modifiedContent with
        | none => simp [hl] at h
        | some y =>
          cases y with
          | error err => simp [hl] at h
          | ok pr =>
            obtain ⟨fc2, rs2⟩ := pr
            simp only [hl, Option.some.injEq, Except.ok.injEq, Prod.mk.injEq] at h
            rw [← h.1]
            exact ih r.modifiedContent fc2 rs2
              (applyEdit_no_cr content e stgy foA r hc (hn e (by simp)) hd)
              (fun e2 he2 => hn e2 (List.mem_cons_of_mem _ he2)) hl

/-- C6, amended.  If the original content uses CRLF line endings exclusively
and actually contains one (so the detector picks CRLF), and no edit's
`newText` contains a carriage return of its own, then the final content of a
successful edit sequence — the loop result with the original line-ending style
restored — again uses CRLF line endings exclusively.  Without the new
hypothesis a carriage return inside `newText` survives into the output as a
stray CR (see the counterexample). -/
theorem C6_line_ending_roundtrip (rawContent : Str) (args : EditFileArgs)
    (hex : crlfExclusive rawContent = true) (hcrlf : hasCrlf rawContent = true)
    (hnew : ∀ e ∈ args.edits, '\r' ∉ e.newText) :
    ∀ fc rs, applyEditsLoop args.matchingStrategy args.failOnAmbiguous args.edits
        (normalizeLineEndings rawContent) = some (.ok (fc, rs)) →
      crlfExclusive (restoreLineEndings fc (detectLineEnding rawContent)) = true := by
  intro fc rs hl
  have hdet : detectLineEnding rawContent = .crlf := by
    rw [detectLineEnding, if_pos hcrlf]
  rw [hdet]
  exact restore_crlfExclusive fc
    (applyEditsLoop_no_cr args.matchingStrategy args.failOnAmbiguous args.edits
      (normalizeLineEndings rawContent) fc rs (norm_no_cr rawContent hex) hnew hl)

/-- C6 counterexample: content `"a\r\nb"` uses CRLF exclusively, the edit
sequence succeeds, but `newText = "c\rd"` carries a lone CR, and the written
final content `"c\rd\r\nb"` is no longer CRLF-exclusive. -/
theorem C6_counterexample :
    crlfExclusive (str "a\r\nb") = true ∧
      hasCrlf (str "a\r\nb") = true ∧
      (editFileTool (.ok { edits := [{ oldText := str "a", newText := str "c\rd" }] })
        (.ok (str "a\r\nb")) (.ok ())).map (fun p => p.1.success) = some true ∧
      (editFileTool (.ok { edits := [{ oldText := str "a", newText := str "c\rd" }] })
        (.ok (str "a\r\nb")) (.ok ())).map (fun p => p.2) = some (some (str "c\rd\r\nb")) ∧
      crlfExclusive (str "c\rd\r\nb") = false := by
  refine ⟨by decide, by decide, by decide, by decide, by decide⟩

/-- Witness for C6 at a concrete input with a CR-free replacement. -/
theorem C6_line_ending_roundtrip_witness :
    crlfExclusive (restoreLineEndings (str "x\nb") (detectLineEnding (str "a\r\nb"))) =
      true :=
  C6_line_ending_roundtrip (str "a\r\nb")
    { edits := [{ oldText := str "a", newText := str "x" }] }
    (by decide) (by decide) (by decide) (str "x\nb")
    [{ strategy := .exact
       occurrences := 1
       modifiedContent := str "x\nb"
       message := str "Exact match found at line 1"
       lineRange := some ⟨1, 1⟩ }]
    (by decide)

/-- C9, amended.  Re-indentation as implemented: in the flexible matcher the
replacement block spliced over a (single) matched window consists of the lines
of `newText` (normalized, split on LF) where the **first line always receives
the captured indentation — even when it is blank** — and every later line is
left entirely empty when blank and re-indented (indentation plus trimmed text)
otherwise; in the fuzzy matcher (for a `newText` without dollar characters,
which would trigger replacement-pattern expansion) the block substituted over
the first match leaves every blank line empty and re-indents every non-blank
line with the captured indentation. -/
theorem C9_reindentation (content oldText newText : Str)
    (hold : normalizeLineEndings oldText = oldText) :
    (∀ m r, flexMatches (splitOnChar '\n' content) (splitOnChar '\n' oldText) = [m] →
      tryFlexibleMatch content oldText newText = some r →
      r.modifiedContent = joinSep (str "\n")
        ((splitOnChar '\n' content).take m ++
          [joinSep (str "\n") (flexIndentLines
            (leadingWhitespace ((splitOnChar '\n' content).getD m []))
            (splitOnChar '\n' (normalizeLineEndings newText)))] ++
          (splitOnChar '\n' content).drop (m + (splitOnChar '\n' oldText).length))) ∧
    (∀ indent l0 t, splitOnChar '\n' (normalizeLineEndings newText) = l0 :: t →
      (flexIndentLines indent (l0 :: t)).headD [] = indent ++ trimJs l0 ∧
      ∀ k, k < t.length →
        (flexIndentLines indent (l0 :: t)).getD (k + 1) [] =
          (if trimJs (t.getD k []) = [] then [] else indent ++ trimJs (t.getD k []))) ∧
    (dollarChar ∉ newText →
      ∀ r, tryFuzzyMatch content oldText newText = some r →
      ∃ p e, fuzzyScan (fuzzyTokens oldText) content = some (p, e) ∧
        r.modifiedContent = content.take p ++
          joinSep (str "\n") (fuzzyIndentLines
            ((content.drop p).takeWhile isJsWhitespace) (splitOnChar '\n' newText)) ++
          content.drop e) ∧
    (∀ indent k, k < (splitOnChar '\n' newText).length →
      (fuzzyIndentLines indent (splitOnChar '\n' newText)).getD k [] =
        (if trimJs ((splitOnChar '\n' newText).getD k []) = [] then [] else
          indent ++ trimJs ((splitOnChar '\n' newText).getD k []))) := by
  refine ⟨?_, ?_, ?_, ?_⟩
  · intro m r hms hr
    simp only [tryFlexibleMatch, hold] at hr
    rw [if_neg (splitOnChar_ne_nil '\n' oldText), hms] at hr
    rw [if_neg (by simp)] at hr
    injection hr with hr
    subst hr
    show joinSep (str "\n") (List.foldl _ _ [m].reverse) = _
    rw [List.reverse_singleton, List.foldl_cons, List.foldl_nil, spliceOne]
  · intro indent l0 t _
    refine ⟨by rw [flexIndentLines]; simp, ?_⟩
    intro k hk
    rw [flexIndentLines]
    rw [List.getD_cons_succ]
    rw [getD_map_of_lt _ t k hk]
  · intro hdollar r hr
    rw [tryFuzzyMatch] at hr
    by_cases htk : fuzzyTokens oldText = []
    · rw [if_pos htk] at hr
      exact absurd hr (by simp)
    · rw [if_neg htk] at hr
      cases hscan : fuzzyScan (fuzzyTokens oldText) content with
      | none => rw [hscan] at hr; exact absurd hr (by simp)
      | some pe =>
        obtain ⟨p, e⟩ := pe
        rw [hscan] at hr
        injection hr with hr
        subst hr
        refine ⟨p, e, rfl, ?_⟩
        show content.take p ++ expandRepl _ _ _ _ _ ++ content.drop e = _
        congr 1
        congr 1
        apply expandRepl_no_dollar
        intro hh
        have hind : dollarChar ∉ (content.drop p).takeWhile isJsWhitespace := by
          intro hh2
          have := mem_takeWhile_pred isJsWhitespace _ _ hh2
          exact absurd this (by decide)
        have hrepl : ∀ l ∈ splitOnChar '\n' newText, dollarChar ∉ l := fun l hl hh2 =>
          hdollar (mem_splitOnChar '\n' newText l hl _ hh2)
        rcases mem_joinSep _ _ _ hh with hsep | ⟨x, hx, haxx⟩
        · have hcontra : dollarChar = '\n' := by simpa [str] using hsep
          exact absurd hcontra (by decide)
        · exact fuzzyIndentLines_not_mem _ _ dollarChar hind hrepl x hx haxx
  · intro indent k hk
    rw [fuzzyIndentLines, getD_map_of_lt _ _ k hk]

/-- C9 counterexample: flexible match in content `"  x"` with
`newText = "\ny"`, whose first line is blank.  The claim demands that blank
line be left entirely empty, but the modified content is `"  \n  y"`: its first
line is the two-space indentation, not the empty line. -/
theorem C9_counterexample :
    (tryFlexibleMatch (str "  x") (str "x") (str "\ny")).map MatchResult.modifiedContent =
        some (str "  \n  y") ∧
      trimJs ((splitOnChar '\n' (str "\ny")).headD [' ']) = [] ∧
      (splitOnChar '\n' (str "  \n  y")).headD [] = str "  " ∧
      ¬ (str "  " : Str) = [] := by
  refine ⟨by decide, by decide, by decide, by decide⟩

/-- Witness for C9 at a concrete input. -/
theorem C9_reindentation_witness :
    (flexIndentLines (str "  ") (str "a" :: [str "b"])).headD [] =
        str "  " ++ trimJs (str "a") ∧
      ∀ k, k < [str "b"].length →
        (flexIndentLines (str "  ") (str "a" :: [str "b"])).getD (k + 1) [] =
          (if trimJs ([str "b"].getD k []) = [] then [] else
            str "  " ++ trimJs ([str "b"].getD k [])) :=
  (C9_reindentation (str "x") (str "x") (str "a\nb") (by decide)).2.1
    (str "  ") (str "a") [str "b"] (by decide)

end EditFile
